import Mathlib

/-!
# Verification of the maze-chase engine (`D tasks/main.cpp`)

Shallow embedding of the pursuit-game core: the walkability grid, the
A* next-step planner (`astar_next_step`), the tween `Mover`
(`place_at_cell`, `start_move`, `update_mover`), maze loading
(`load_maze`, `find_single_exit`), spawn selection (`random_road` and
the resampling loops in `main`/`reset_round`), and the per-tick round
logic (coin pickup, win/lose checks, frozen end-of-round statistics).

C++ `int` is modelled as `Int` (no arithmetic here approaches 2^31, and
the theorems carry explicit size hypotheses where the `1<<29` infinity
sentinel matters), `float` as `ℚ` (the tween arithmetic is exact linear
interpolation), and the RNG as an explicit stream of draws.
-/

namespace MazeGame

/-- Cell coordinate `(row, col)`, C++ `pair<int,int>`. -/
abbrev Cell : Type := Int × Int

/-- `static const int WALL = 1;` -/
def WALLC : Int := 1

/-- `static const int ROAD = 0;` -/
def ROADC : Int := 0

/-- `static int TILE = 32;` -/
def TILE : Int := 32

/-- `static int PADDING = 0;` -/
def PADDING : Int := 0

/-- `static int NUM_COINS = 20;` -/
def NUM_COINS : Nat := 20

/-- `static int COIN_VALUE = 100;` -/
def COIN_VALUE : Int := 100

/-- `static float PICK_RADIUS = 0.48f;` -/
def PICK_RADIUS : ℚ := 48 / 100

/-- The maze, C++ `vector<vector<int>>`. -/
abbrev Grid : Type := List (List Int)

instance exceptDecEq {ε α : Type} [DecidableEq ε] [DecidableEq α] :
    DecidableEq (Except ε α)
  | .error a, .error b =>
    if h : a = b then isTrue (by rw [h])
    else isFalse (by intro hh; cases hh; exact h rfl)
  | .error _, .ok _ => isFalse (by intro hh; cases hh)
  | .ok _, .error _ => isFalse (by intro hh; cases hh)
  | .ok a, .ok b =>
    if h : a = b then isTrue (by rw [h])
    else isFalse (by intro hh; cases hh; exact h rfl)

/-- `g.size()`: number of rows, the `H` of the C++ code. -/
def Hg (g : Grid) : Int := g.length

/-- `g[0].size()`: number of columns, the `W` of the C++ code
(the length of the first row; rows are never re-measured). -/
def Wg (g : Grid) : Int := (g.headD []).length

/-- `g[r][c]`. C++ indexing out of bounds is undefined behaviour; the
embedding totalises it with the `WALL` value, and every theorem whose
truth depends on a cell value carries an in-bounds hypothesis. -/
def cellv (g : Grid) (p : Cell) : Int :=
  (g.getD p.1.toNat []).getD p.2.toNat WALLC

/-- The bounds check `inb` of `astar_next_step`:
`0<=r && r<H && 0<=c && c<W`. -/
def inb (g : Grid) (p : Cell) : Prop :=
  0 ≤ p.1 ∧ p.1 < Hg g ∧ 0 ≤ p.2 ∧ p.2 < Wg g

instance (g : Grid) (p : Cell) : Decidable (inb g p) := by
  unfold inb; infer_instance

/-- `walkable` (main.cpp line 240): in bounds and a `ROAD` cell. -/
def walkable (g : Grid) (p : Cell) : Prop :=
  inb g p ∧ cellv g p = ROADC

instance (g : Grid) (p : Cell) : Decidable (walkable g p) := by
  unfold walkable; infer_instance

/-- The passability test used inside `astar_next_step`
(`!inb(rr,cc) || g[rr][cc]==WALL` skips the neighbour): in bounds and
not a `WALL` cell.  On 0/1 grids this coincides with `walkable`. -/
def passable (g : Grid) (p : Cell) : Prop :=
  inb g p ∧ cellv g p ≠ WALLC

instance (g : Grid) (p : Cell) : Decidable (passable g p) := by
  unfold passable; infer_instance

/-- The grid is rectangular: nonempty and every row has the length of
the first row.  (The C++ code never checks this.) -/
def rect (g : Grid) : Prop :=
  g ≠ [] ∧ ∀ row ∈ g, (row.length : Int) = Wg g

instance (g : Grid) : Decidable (rect g) := by
  unfold rect; infer_instance

/-- Every cell value is `ROAD` or `WALL` (the data model of the spec:
cell kind ∈ {Wall, Road}). -/
def binaryGrid (g : Grid) : Prop :=
  ∀ row ∈ g, ∀ v ∈ row, v = ROADC ∨ v = WALLC

/-- 4-adjacency of two cells (unit step in one axis). -/
def adjacent (p q : Cell) : Prop :=
  (p.1 - q.1).natAbs + (p.2 - q.2).natAbs = 1

instance (p q : Cell) : Decidable (adjacent p q) := by
  unfold adjacent; infer_instance

/-- The movement graph of the maze: 4-adjacency restricted to walkable
cells.  Uniform step cost 1, so graph distance is the true
shortest-path length of the spec. -/
def mazeGraph (g : Grid) : SimpleGraph Cell where
  Adj p q := adjacent p q ∧ walkable g p ∧ walkable g q
  symm := by
    intro p q h
    refine ⟨?_, h.2.2, h.2.1⟩
    unfold adjacent at h ⊢
    omega
  loopless := by
    intro p h
    unfold adjacent at h
    omega

/-- `cell_to_px_c` / `cell_to_px_r`: canonical pixel coordinate of a
cell index (`c * TILE + PADDING`). -/
def cell_to_px (c : Int) : ℚ := (c : ℚ) * (TILE : ℚ) + (PADDING : ℚ)

/-- `struct Mover` (main.cpp lines 132-141), `float` fields as `ℚ`. -/
structure Mover where
  r : Int := 0
  c : Int := 0
  tr : Int := 0
  tc : Int := 0
  x : ℚ := 0
  y : ℚ := 0
  sx : ℚ := 0
  sy : ℚ := 0
  tx : ℚ := 0
  ty : ℚ := 0
  t : ℚ := 0
  moving : Bool := false
  speed : ℚ := 160
  deriving DecidableEq, Repr

/-- `place_at_cell` (main.cpp lines 143-149). -/
def place_at_cell (m : Mover) (r c : Int) : Mover :=
  { m with
      r := r
      c := c
      tr := r
      tc := c
      x := cell_to_px c
      y := cell_to_px r
      sx := cell_to_px c
      tx := cell_to_px c
      sy := cell_to_px r
      ty := cell_to_px r
      t := 0
      moving := false }

/-- `start_move` (main.cpp lines 151-157).  Note: completely unguarded,
it does not test `m.moving`. -/
def start_move (m : Mover) (nr nc : Int) : Mover :=
  { m with
      tr := nr
      tc := nc
      sx := m.x
      sy := m.y
      tx := cell_to_px nc
      ty := cell_to_px nr
      t := 0
      moving := true }

/-- `update_mover` (main.cpp lines 159-171). -/
def update_mover (m : Mover) (dt : ℚ) : Mover :=
  if m.moving = false then m
  else
    let t' := m.t + (m.speed * dt) / (TILE : ℚ)
    if 1 ≤ t' then
      { m with
          t := 1
          moving := false
          r := m.tr
          c := m.tc
          x := m.tx
          y := m.ty }
    else
      { m with
          t := t'
          x := m.sx + (m.tx - m.sx) * t'
          y := m.sy + (m.ty - m.sy) * t' }

/-- Well-formedness of a `Mover`: exactly the states produced by
`place_at_cell` / `start_move` / `update_mover` from a placed mover.
While idle the pixel position is the canonical position of the
committed cell; while moving the progress is in `[0,1)`, the pixel
position is the linear interpolation of the recorded endpoints, and
the target pixel is the canonical position of the target cell. -/
def MoverWF (m : Mover) : Prop :=
  0 ≤ m.speed ∧ 0 ≤ m.t ∧
  m.tx = cell_to_px m.tc ∧ m.ty = cell_to_px m.tr ∧
  (m.moving = false →
    m.r = m.tr ∧ m.c = m.tc ∧ m.x = cell_to_px m.c ∧ m.y = cell_to_px m.r) ∧
  (m.moving = true →
    m.t < 1 ∧ m.x = m.sx + (m.tx - m.sx) * m.t ∧
    m.y = m.sy + (m.ty - m.sy) * m.t)

/-- A JSON value as far as `load_maze` observes it: a number or an
array (nlohmann::json restricted to the constructors the maze file
uses). -/
inductive Jv where
  | num (n : Int)
  | arr (xs : List Jv)

/-- `x.is_array()`. -/
def Jv.isArr : Jv → Bool
  | .arr _ => true
  | .num _ => false

/-- `(int)x`: nlohmann throws a type error when converting an array to
int, modelled as `Except`. -/
def jToInt : Jv → Except String Int
  | .num n => .ok n
  | .arr _ => .error ("type error: cannot convert array to int")

/-- `for (auto &x : row)`: iterating an nlohmann array yields its
elements; iterating a primitive yields the single value itself. -/
def rowItems : Jv → List Jv
  | .num n => [.num n]
  | .arr xs => xs

/-- The inner row-conversion loop of `load_maze`
(`for (auto &x : row) r.push_back((int)x);`), a thrown conversion
error aborting the load. -/
def convRow : List Jv → Except String (List Int)
  | [] => .ok []
  | x :: xs => do
    let v ← jToInt x
    let r ← convRow xs
    pure (v :: r)

/-- The outer row loop of `load_maze`
(`for (auto &row : nj) { ... g.push_back(std::move(r)); }`). -/
def convRows : List Jv → Except String Grid
  | [] => .ok []
  | row :: rows => do
    let r ← convRow (rowItems row)
    let rest ← convRows rows
    pure (r :: rest)

/-- `load_maze` (main.cpp lines 53-70), minus the file-IO glue: fails
iff the JSON is not an array, is an empty array, or its first element
is not an array (`!nj.is_array() || nj.empty() || !nj[0].is_array()`),
or an element cannot be converted to int; otherwise converts each row.
No rectangularity check of any kind is performed. -/
def load_maze (nj : Jv) : Except String Grid :=
  match nj with
  | .num _ => .error ("maze.json must be a 2D array")
  | .arr [] => .error ("maze.json must be a 2D array")
  | .arr (r0 :: rest) =>
    if r0.isArr = false then .error ("maze.json must be a 2D array")
    else convRows (r0 :: rest)

/-- Encode a plain 2D int matrix as the JSON value the maze file holds. -/
def encodeGrid (rows : Grid) : Jv :=
  Jv.arr (rows.map (fun r => Jv.arr (r.map Jv.num)))

/-- The border scan of `find_single_exit` (main.cpp lines 73-87), in
C++ push order: first the top and bottom rows for every column, then
the left and right columns for every row.  Note corner cells are
visited by both loops, so a corner Road cell is pushed twice. -/
def borderExits (g : Grid) : List Cell :=
  ((List.range (Wg g).toNat).flatMap (fun (c : Nat) =>
    (if cellv g (0, (c : Int)) = ROADC then [((0 : Int), (c : Int))] else []) ++
    (if cellv g (Hg g - 1, (c : Int)) = ROADC then [(Hg g - 1, (c : Int))] else []))) ++
  ((List.range (Hg g).toNat).flatMap (fun (r : Nat) =>
    (if cellv g ((r : Int), 0) = ROADC then [((r : Int), (0 : Int))] else []) ++
    (if cellv g ((r : Int), Wg g - 1) = ROADC then [((r : Int), Wg g - 1)] else [])))

/-- `find_single_exit` (main.cpp lines 73-87): errors unless the
border scan produced exactly one entry, else returns it. -/
def find_single_exit (g : Grid) : Except String Cell :=
  let ex := borderExits g
  if ex.length = 1 then .ok (ex.headD (0, 0))
  else .error ("maze border must contain exactly one exit")

/-- Spec-side notion: an in-bounds Road cell lying on the grid border. -/
def isBorderRoad (g : Grid) (p : Cell) : Prop :=
  inb g p ∧ cellv g p = ROADC ∧
  (p.1 = 0 ∨ p.1 = Hg g - 1 ∨ p.2 = 0 ∨ p.2 = Wg g - 1)

/-- All Road cells in row-major scan order (the `roads` vector of
`random_road`, main.cpp lines 90-99). -/
def roadCells (g : Grid) : List Cell :=
  (List.range (Hg g).toNat).flatMap (fun (r : Nat) =>
    (List.range (Wg g).toNat).filterMap (fun (c : Nat) =>
      if cellv g ((r : Int), (c : Int)) = ROADC then some ((r : Int), (c : Int))
      else none))

/-- The RNG as an explicit stream of draws, one entry consumed per
`random_road` call. -/
abbrev Rng : Type := List Nat

/-- `random_road` (main.cpp lines 90-99): uniform choice among all
Road cells; the `uniform_int_distribution` draw is modelled as the
next stream entry reduced mod the number of road cells.  Fails with
`no ROAD cells` when the grid has none. -/
def random_road (g : Grid) (rs : Rng) : Except String (Cell × Rng) :=
  let roads := roadCells g
  if roads.length = 0 then .error ("no ROAD cells")
  else .ok (roads.getD (rs.headD 0 % roads.length) (0, 0), rs.tail)

/-- The monster-spawn resampling loop
(`while (mspawn==pspawn || mspawn==exit_cell) mspawn = random_road(...)`,
main.cpp line 296 and again lines 354-355 in `reset_round`), with fuel
for the unbounded C++ loop; exhausted fuel is an error the theorems
avoid. -/
def resampleMonster (g : Grid) (pspawn exitC : Cell) :
    Nat → Cell → Rng → Except String (Cell × Rng)
  | 0, ms, rs =>
    if ms = pspawn ∨ ms = exitC then .error ("resample fuel exhausted")
    else .ok (ms, rs)
  | fuel + 1, ms, rs =>
    if ms = pspawn ∨ ms = exitC then
      match random_road g rs with
      | .error e => .error e
      | .ok (ms', rs') => resampleMonster g pspawn exitC fuel ms' rs'
    else .ok (ms, rs)

/-- Spawn selection as performed both at startup (main.cpp lines
293-296) and in `reset_round` (lines 352-355): draw the player spawn,
draw the monster spawn, and resample the monster spawn while it
collides with the player spawn or the exit.  The player spawn is never
checked against the exit. -/
def pick_spawns (g : Grid) (exitC : Cell) (rs : Rng) (fuel : Nat) :
    Except String (Cell × Cell × Rng) := do
  let pr ← random_road g rs
  let mr ← random_road g pr.2
  let ms ← resampleMonster g pr.1 exitC fuel mr.1 mr.2
  pure (pr.1, ms.1, ms.2)

/-- Concrete 3×3 grid whose only border Road cell is (1,0). -/
def gridC8 : Grid := [[1, 1, 1], [0, 0, 1], [1, 1, 1]]

/-- Concrete ragged (non-rectangular) grid: row 1 is longer than the
others; measured at the first row's width its border holds exactly one
Road cell, (0,1). -/
def gridC6 : Grid := [[1, 0, 1], [1, 1, 1, 1], [1, 1, 1]]

/-- Concrete 1×4 grid `0 0 1 0`: cell (0,3) is a Road cell cut off
from (0,0) by the wall at (0,2), while (0,1) is reachable from
(0,0). -/
def gridC2 : Grid := [[0, 0, 1, 0]]

/-- Concrete 1×2 all-Road grid: its two cells form a single connected
road component. -/
def gridW : Grid := [[0, 0]]

/-- An idle mover placed at cell (0,0) (concrete test state). -/
def moverA : Mover := place_at_cell {} 0 0

/-- A mid-flight mover: started toward cell (0,1) and advanced to
progress 1/2 (concrete test state). -/
def moverB : Mover := update_mover (start_move moverA 0 1) (1 / 10)

/-- The `1<<29` "infinity" initial g-score of `astar_next_step`. -/
def INF : Int := 2 ^ 29

/-- The `1<<30` initial best-f of the unreachable-goal scan. -/
def BIG : Int := 2 ^ 30

/-- `struct Node{int r,c,g,f;}` of `astar_next_step` (the cell packs
`r,c`). -/
structure SNode where
  pos : Cell
  gv : Int
  fv : Int
  deriving DecidableEq, Repr

/-- The heuristic `h` of `astar_next_step`:
`std::abs(r-t.first)+std::abs(c-t.second)` (Manhattan distance to the
goal `t`). -/
def hManhattan (t p : Cell) : Int := |p.1 - t.1| + |p.2 - t.2|

/-- Strict order on queue nodes induced by `Cmp`
(`(a.f>b.f) || (a.f==b.f && a.g>b.g)`): the priority queue pops a node
minimal in `(f, g)` lexicographic order. -/
def keyLt (a b : SNode) : Prop := a.fv < b.fv ∨ (a.fv = b.fv ∧ a.gv < b.gv)

instance (a b : SNode) : Decidable (keyLt a b) := by
  unfold keyLt; infer_instance

/-- Pop a node minimal in `(f, g)` from the queue.  `std::priority_queue`
leaves the order among equal keys unspecified; the embedding fixes it
to first-in-first-out (the earliest minimal element is popped). -/
def popMin : List SNode → Option (SNode × List SNode)
  | [] => none
  | x :: xs =>
    match popMin xs with
    | none => some (x, [])
    | some (m, rest) => if keyLt m x then some (m, x :: rest) else some (x, xs)

/-- The mutable search state of `astar_next_step`: the `gscore` and
`came` H×W matrices (as total maps over cells, faithful on in-bounds
cells, which are the only ones the code reads), and the priority
queue. -/
structure AState where
  gscore : Cell → Int
  came : Cell → Cell
  queue : List SNode

/-- The neighbour offsets `DR`/`DC` in loop order: up, down, left,
right. -/
def dirs : List Cell := [(-1, 0), (1, 0), (0, -1), (0, 1)]

/-- One iteration of the inner `for(k)` loop of `astar_next_step`:
skip the neighbour if out of bounds or a wall, otherwise relax it with
`ng = cur.g + 1` (strict improvement required), recording the
back-pointer and pushing the node. -/
def relax (g : Grid) (t : Cell) (cur : SNode) (st : AState) (d : Cell) : AState :=
  let rr := cur.pos.1 + d.1
  let cc := cur.pos.2 + d.2
  if ¬ inb g (rr, cc) ∨ cellv g (rr, cc) = WALLC then st
  else
    let ng := cur.gv + 1
    if ng < st.gscore (rr, cc) then
      { gscore := Function.update st.gscore (rr, cc) ng
        came := Function.update st.came (rr, cc) cur.pos
        queue := st.queue ++ [⟨(rr, cc), ng, ng + hManhattan t (rr, cc)⟩] }
    else st

/-- Expand a popped node: relax its four neighbours in loop order. -/
def expand (g : Grid) (t : Cell) (cur : SNode) (st : AState) : AState :=
  dirs.foldl (relax g t cur) st

/-- The main `while(!pq.empty())` loop of `astar_next_step`: pop the
minimal node, stop when it is the goal (`break`), else expand it.  The
C++ loop has no fuel; the fuel below is a proved upper bound on the
number of iterations, so with `astarFuelFor` the embedding always
stops by the queue emptying or the goal being popped. -/
def searchLoop (g : Grid) (t : Cell) : Nat → AState → AState
  | 0, st => st
  | fuel + 1, st =>
    match popMin st.queue with
    | none => st
    | some (cur, rest) =>
      if cur.pos = t then { st with queue := rest }
      else searchLoop g t fuel (expand g t cur { st with queue := rest })

/-- Fuel bound for `searchLoop`: every iteration strictly decreases
(sum of in-bounds g-scores) + (queue length), which starts below
`H*W*2^29 + 2`. -/
def astarFuelFor (g : Grid) : Nat := (Hg g).toNat * (Wg g).toNat * 2 ^ 29 + 2

/-- The initial search state: all g-scores `1<<29` except `gscore[s]=0`,
all back-pointers `(-1,-1)`, queue holding the start node. -/
def initAState (g : Grid) (s t : Cell) : AState :=
  { gscore := Function.update (fun _ => INF) s 0
    came := fun _ => (-1, -1)
    queue := [⟨s, 0, hManhattan t s⟩] }

/-- All cells in row-major order (the `for(r) for(c)` scan of the
unreachable-goal branch). -/
def cellsRM (g : Grid) : List Cell :=
  (List.range (Hg g).toNat).flatMap (fun (r : Nat) =>
    (List.range (Wg g).toNat).map (fun (c : Nat) => ((r : Int), (c : Int))))

/-- The unreachable-goal surrogate scan (main.cpp lines 215-221):
among cells with `gscore < 1<<29`, the first in row-major order whose
`f = gscore + h` is strictly below the running best (initially
`best = s`, `bestf = 1<<30`). -/
def surrogateScan (g : Grid) (t : Cell) (gs : Cell → Int) (s : Cell) : Cell :=
  ((cellsRM g).foldl (fun acc p =>
    if gs p < INF ∧ gs p + hManhattan t p < acc.2 then (p, gs p + hManhattan t p)
    else acc) (s, BIG)).1

/-- The back-pointer walk (main.cpp lines 225-232): push cells from
the target back toward `s`, stopping at `s` or at a `(-1,-1)`
back-pointer.  The C++ loop has no fuel; under the proved invariants
the walk strictly decreases `gscore`, so `2^30` steps always
suffice. -/
def backtrackLoop (came : Cell → Cell) (s : Cell) : Nat → Cell → List Cell → List Cell
  | 0, _, path => path
  | fuel + 1, cur, path =>
    if cur = s then path
    else
      let path' := path ++ [cur]
      let pa := came cur
      if pa = (-1, -1) then path' else backtrackLoop came s fuel pa path'

/-- Fuel for `backtrackLoop`. -/
def BFUEL : Nat := 2 ^ 30

/-- `astar_next_step` (main.cpp lines 174-235): returns only the next
step from `s` toward `t`.  `s == t` short-circuits; after the search,
if the goal has no back-pointer (unreachable) the surrogate target is
the best-f visited cell (returning `s` when the surrogate is `s`
itself); finally the back-pointer path is walked and its last element
(the cell adjacent to `s`) is returned, `s` when the path is empty. -/
def astar_next_step (g : Grid) (s t : Cell) : Cell :=
  if s = t then s
  else
    let st := searchLoop g t (astarFuelFor g) (initAState g s t)
    if st.came t = (-1, -1) then
      let best := surrogateScan g t st.gscore s
      if best = s then s
      else
        match (backtrackLoop st.came s BFUEL best []).getLast? with
        | none => s
        | some x => x
    else
      match (backtrackLoop st.came s BFUEL t []).getLast? with
      | none => s
      | some x => x

/-- All in-bounds cells as a finset (for the termination measure). -/
def cellFinset (g : Grid) : Finset Cell :=
  (Finset.Icc 0 (Hg g - 1)) ×ˢ (Finset.Icc 0 (Wg g - 1))

/-- Sum of the in-bounds g-scores (termination measure component). -/
def sumG (g : Grid) (st : AState) : Int :=
  ∑ p in cellFinset g, st.gscore p

/-- Termination measure of the search loop: every iteration strictly
decreases it. -/
def measureA (g : Grid) (st : AState) : Nat :=
  (sumG g st).toNat + st.queue.length

/-- `H*W < 2^29`: the `1<<29` infinity sentinel dominates every true
distance in the grid. -/
def smallGrid (g : Grid) : Prop := Hg g * Wg g < INF

/-- Core loop invariant of `astar_next_step` on the g-score and
back-pointer maps; it holds at every point of the search, including a
hypothetical fuel exhaustion, and everything the path reconstruction
needs follows from it. -/
structure ACore (g : Grid) (s : Cell) (st : AState) : Prop where
  gs_start : st.gscore s = 0
  gs_le : ∀ p, st.gscore p ≤ INF
  gs_nonneg : ∀ p, 0 ≤ st.gscore p
  gs_dist : ∀ p, st.gscore p < INF → walkable g p ∧
    (mazeGraph g).Reachable s p ∧ ((mazeGraph g).dist s p : Int) ≤ st.gscore p
  came_iff : ∀ p, st.came p ≠ ((-1 : Int), (-1 : Int)) ↔ (p ≠ s ∧ st.gscore p < INF)
  came_spec : ∀ p, p ≠ s → st.gscore p < INF →
    adjacent p (st.came p) ∧ walkable g (st.came p) ∧
    st.gscore (st.came p) < st.gscore p

/-- Queue part of the loop invariant: every queued node carries
consistent `f`/`g` values for a genuinely reachable walkable cell, and
every cell with a finite g-score either still has a queue node at its
current g-score or has already been fully relaxed at it. -/
structure AQueue (g : Grid) (s t : Cell) (st : AState) : Prop where
  node_spec : ∀ n ∈ st.queue, n.fv = n.gv + hManhattan t n.pos ∧ 0 ≤ n.gv ∧
    st.gscore n.pos ≤ n.gv ∧ walkable g n.pos ∧
    (mazeGraph g).Reachable s n.pos ∧ ((mazeGraph g).dist s n.pos : Int) ≤ n.gv
  cover : ∀ p, st.gscore p < INF →
    (∃ n ∈ st.queue, n.pos = p ∧ n.gv = st.gscore p) ∨
    (∀ q, adjacent q p → walkable g q → st.gscore q ≤ st.gscore p + 1)

/-- Facts about the node being expanded, extracted from the queue
invariant at pop time and stable under the relaxations of its own
expansion. -/
def curOK (g : Grid) (s : Cell) (st : AState) (cur : SNode) : Prop :=
  0 ≤ cur.gv ∧ st.gscore cur.pos ≤ cur.gv ∧ walkable g cur.pos ∧
  (mazeGraph g).Reachable s cur.pos ∧
  ((mazeGraph g).dist s cur.pos : Int) ≤ cur.gv

/-- `struct Coin { int r, c; bool collected; }`. -/
structure Coin where
  r : Int
  c : Int
  collected : Bool
  deriving DecidableEq, Repr

/-- Player input intent for one tick (spec §6: no-move / up / down /
left / right), abstracting the WASD/arrow key polling. -/
inductive MoveIntent where
  | nomove
  | up
  | down
  | left
  | right
  deriving DecidableEq, Repr

/-- The `(dr, dc)` produced by the key checks (main.cpp lines 381-384). -/
def intentDelta : MoveIntent → Cell
  | .nomove => (0, 0)
  | .up => (-1, 0)
  | .down => (1, 0)
  | .left => (0, -1)
  | .right => (0, 1)

/-- The per-round mutable state of `main`'s game loop: maze, exit,
both movers, coins, live counters, and the frozen end-of-round
snapshot (`last_*`, `end_stats_ready`) together with the terminal
flags. -/
structure GState where
  maze : Grid
  exitC : Cell
  player : Mover
  monster : Mover
  coins : List Coin
  coins_collected : Int
  score : Int
  last_coins_collected : Int
  last_score : Int
  end_stats_ready : Bool
  victory : Bool
  game_over : Bool

/-- The round state of the spec's state machine, derived from the two
flags exactly as the code consumes them (the end screen shows WIN when
`victory`, else GAME OVER when `game_over`, and every gameplay guard
tests `!victory && !game_over`). -/
inductive RoundState where
  | Playing
  | Victory
  | Defeat
  deriving DecidableEq, Repr

/-- Derived round state; victory dominates. -/
def roundState (st : GState) : RoundState :=
  if st.victory = true then .Victory
  else if st.game_over = true then .Defeat
  else .Playing

/-- Input phase (main.cpp lines 379-389): while playing and the player
idle, start a move to the intended neighbour if it is walkable. -/
def inputPhase (st : GState) (i : MoveIntent) : GState :=
  if st.player.moving = false ∧ st.victory = false ∧ st.game_over = false then
    let d := intentDelta i
    let nr := st.player.r + d.1
    let nc := st.player.c + d.2
    if d ≠ ((0 : Int), (0 : Int)) ∧ walkable st.maze (nr, nc) then
      { st with player := start_move st.player nr nc }
    else st
  else st

/-- Monster AI phase (main.cpp lines 391-397): while playing and the
monster idle, plan one A* step toward the player and start the move
when it differs from the current cell — without re-checking
walkability. -/
def monsterPhase (st : GState) : GState :=
  if st.monster.moving = false ∧ st.victory = false ∧ st.game_over = false then
    let step := astar_next_step st.maze (st.monster.r, st.monster.c) (st.player.r, st.player.c)
    if step ≠ (st.monster.r, st.monster.c) then
      { st with monster := start_move st.monster step.1 step.2 }
    else st
  else st

/-- Tween update phase (main.cpp lines 399-403). -/
def movePhase (st : GState) (dt : ℚ) : GState :=
  if st.victory = false ∧ st.game_over = false then
    { st with
        player := update_mover st.player dt
        monster := update_mover st.monster dt }
  else st

/-- One step of the coin-pickup fold (main.cpp lines 411-421):
accumulates the rebuilt coin list and the updated counters. -/
def pickupStep (px py rad2 : ℚ) (acc : List Coin × Int × Int) (coin : Coin) :
    List Coin × Int × Int :=
  if coin.collected = true then (acc.1 ++ [coin], acc.2.1, acc.2.2)
  else
    let cx := cell_to_px coin.c + (TILE : ℚ) / 2
    let cy := cell_to_px coin.r + (TILE : ℚ) / 2
    let dx := px - cx
    let dy := py - cy
    if dx * dx + dy * dy ≤ rad2 then
      (acc.1 ++ [{ coin with collected := true }], acc.2.1 + 1, acc.2.2 + COIN_VALUE)
    else (acc.1 ++ [coin], acc.2.1, acc.2.2)

/-- Coin-pickup phase (main.cpp lines 405-422). -/
def coinPhase (st : GState) : GState :=
  if st.victory = false ∧ st.game_over = false then
    let px := st.player.x + (TILE : ℚ) / 2
    let py := st.player.y + (TILE : ℚ) / 2
    let rad := PICK_RADIUS * (TILE : ℚ)
    let res := st.coins.foldl (pickupStep px py (rad * rad)) ([], st.coins_collected, st.score)
    { st with
        coins := res.1
        coins_collected := res.2.1
        score := res.2.2 }
  else st

/-- Win/lose checks (main.cpp lines 424-432): evaluated only while
playing; the victory check (idle player on the exit cell) and the
defeat check (both idle on the same cell) run in sequence, so both
flags can be set in the same tick. -/
def winLosePhase (st : GState) : GState :=
  if st.victory = false ∧ st.game_over = false then
    let st1 :=
      if st.player.moving = false ∧ st.player.r = st.exitC.1 ∧ st.player.c = st.exitC.2 then
        { st with victory := true }
      else st
    if st1.player.moving = false ∧ st1.monster.moving = false ∧
        st1.player.r = st1.monster.r ∧ st1.player.c = st1.monster.c then
      { st1 with game_over := true }
    else st1
  else st

/-- Snapshot freeze (main.cpp lines 434-439): on the first tick out of
Playing, copy the live counters into the frozen snapshot, exactly
once. -/
def freezePhase (st : GState) : GState :=
  if (st.victory = true ∨ st.game_over = true) ∧ st.end_stats_ready = false then
    { st with
        last_coins_collected := st.coins_collected
        last_score := st.score
        end_stats_ready := true }
  else st

/-- One tick of the game loop (input, monster AI, tween updates, coin
pickup, win/lose checks, snapshot freeze; rendering excluded). -/
def tick (st : GState) (i : MoveIntent) (dt : ℚ) : GState :=
  freezePhase (winLosePhase (coinPhase (movePhase (monsterPhase (inputPhase st i)) dt)))

/-- `reset_round` (main.cpp lines 330-365) with the external
collaborators (maze regeneration, exit computation, spawn and coin
reseeding — themselves modelled by `find_single_exit`, `pick_spawns`
and the coin loop) passed in as parameters: places both movers at
their spawns, resets the live counters, clears the terminal flags and
the frozen-snapshot readiness.  The `last_*` values themselves are not
touched. -/
def reset_round (st : GState) (newMaze : Grid) (newExit : Cell) (p m : Cell)
    (newCoins : List Coin) : GState :=
  { st with
      maze := newMaze
      exitC := newExit
      player := place_at_cell st.player p.1 p.2
      monster := place_at_cell st.monster m.1 m.2
      coins := newCoins
      coins_collected := 0
      score := 0
      victory := false
      game_over := false
      end_stats_ready := false }

/-- Concrete playing state on `gridC8`: player idle on the exit (1,0),
monster idle at (1,1). -/
def gstateW : GState :=
  { maze := gridC8
    exitC := (1, 0)
    player := place_at_cell {} 1 0
    monster := place_at_cell {} 1 1
    coins := []
    coins_collected := 3
    score := 300
    last_coins_collected := 0
    last_score := 0
    end_stats_ready := false
    victory := false
    game_over := false }

/-- Concrete playing state with player and monster both idle on the
exit cell (1,0). -/
def gstateW2 : GState :=
  { gstateW with monster := place_at_cell {} 1 0 }

/-- Concrete terminal state with the snapshot already frozen. -/
def gstateF : GState :=
  { gstateW with
      victory := true
      end_stats_ready := true
      last_coins_collected := 5
      last_score := 500 }

end MazeGame

namespace MazeGame

theorem moverWF_place (m : Mover) (r c : Int) (hsp : 0 ≤ m.speed) :
    MoverWF (place_at_cell m r c) := by
  unfold MoverWF place_at_cell
  refine ⟨hsp, le_refl _, rfl, rfl, ?_, ?_⟩ <;> simp

theorem moverWF_start (m : Mover) (nr nc : Int) (h : MoverWF m) :
    MoverWF (start_move m nr nc) := by
  obtain ⟨hsp, ht, htx, hty, hidle, hmov⟩ := h
  unfold MoverWF start_move
  refine ⟨hsp, le_refl _, rfl, rfl, ?_, ?_⟩
  · simp
  · intro _
    refine ⟨by norm_num, by ring, by ring⟩

theorem moverWF_update (m : Mover) (dt : ℚ) (hdt : 0 ≤ dt) (h : MoverWF m) :
    MoverWF (update_mover m dt) := by
  obtain ⟨hsp, ht, htx, hty, hidle, hmov⟩ := h
  by_cases hmv : m.moving = false
  · have he : update_mover m dt = m := by simp [update_mover, hmv]
    rw [he]
    exact ⟨hsp, ht, htx, hty, hidle, hmov⟩
  · have hmv' : m.moving = true := by revert hmv; cases m.moving <;> simp
    obtain ⟨ht1, hx, hy⟩ := hmov hmv'
    have hstep : 0 ≤ (m.speed * dt) / (TILE : ℚ) := by
      apply div_nonneg (mul_nonneg hsp hdt)
      norm_num [TILE]
    by_cases hc : 1 ≤ m.t + (m.speed * dt) / (TILE : ℚ)
    · have he : update_mover m dt =
        { m with t := 1, moving := false, r := m.tr, c := m.tc, x := m.tx, y := m.ty } := by
        simp [update_mover, hmv', hc]
      rw [he]
      refine ⟨hsp, by norm_num, htx, hty, fun _ => ⟨rfl, rfl, htx, hty⟩, ?_⟩
      intro hco
      exact (Bool.false_ne_true hco).elim
    · have he : update_mover m dt =
        { m with
            t := m.t + (m.speed * dt) / (TILE : ℚ)
            x := m.sx + (m.tx - m.sx) * (m.t + (m.speed * dt) / (TILE : ℚ))
            y := m.sy + (m.ty - m.sy) * (m.t + (m.speed * dt) / (TILE : ℚ)) } := by
        simp [update_mover, hmv', hc]
      rw [he]
      push_neg at hc
      refine ⟨hsp, by linarith, htx, hty, ?_, fun _ => ⟨hc, rfl, rfl⟩⟩
      intro hco
      have hcon : m.moving = false := hco
      rw [hmv'] at hcon
      cases hcon

end MazeGame

namespace MazeGame

theorem moverB_eq :
    moverB = { r := 0, c := 0, tr := 0, tc := 1, x := 16, y := 0, sx := 0, sy := 0, tx := 32, ty := 0, t := 1/2, moving := true, speed := 160 } := by
  norm_num [moverB, moverA, update_mover, start_move, place_at_cell, cell_to_px, TILE, PADDING]

theorem moverB_moving : moverB.moving = true := by rw [moverB_eq]

theorem moverB_WF : MoverWF moverB := by
  rw [moverB_eq]
  unfold MoverWF
  norm_num [cell_to_px, TILE, PADDING]

/-- **C4.** For every well-formed `Mover` and every `dt ≥ 0`: while
Moving, the pixel position after `update_mover` is a convex
combination of the start and target pixels (it lies on the segment
between them); if `dt` drives progress to ≥ 1 the mover lands exactly
on the target cell's canonical pixel position with the cell committed
and the state Idle (progress clamped to 1, no overshoot for any
`dt`); and whenever the result is Idle its pixel position equals the
canonical pixel position of its current cell. -/
theorem C4_tween_segment_no_overshoot (m : Mover) (dt : ℚ)
    (hWF : MoverWF m) (hdt : 0 ≤ dt) :
    (m.moving = true →
      ∃ τ : ℚ, 0 ≤ τ ∧ τ ≤ 1 ∧
        (update_mover m dt).x = m.sx + (m.tx - m.sx) * τ ∧
        (update_mover m dt).y = m.sy + (m.ty - m.sy) * τ) ∧
    (m.moving = true → 1 ≤ m.t + (m.speed * dt) / (TILE : ℚ) →
      (update_mover m dt).moving = false ∧
      (update_mover m dt).r = m.tr ∧ (update_mover m dt).c = m.tc ∧
      (update_mover m dt).x = cell_to_px m.tc ∧
      (update_mover m dt).y = cell_to_px m.tr ∧
      (update_mover m dt).t = 1) ∧
    ((update_mover m dt).moving = false →
      (update_mover m dt).x = cell_to_px (update_mover m dt).c ∧
      (update_mover m dt).y = cell_to_px (update_mover m dt).r) := by
  obtain ⟨hsp, ht, htx, hty, hidle, hmov⟩ := hWF
  have hWF' := moverWF_update m dt hdt ⟨hsp, ht, htx, hty, hidle, hmov⟩
  refine ⟨?_, ?_, ?_⟩
  · intro hmv'
    obtain ⟨ht1, hx, hy⟩ := hmov hmv'
    have hstep : 0 ≤ (m.speed * dt) / (TILE : ℚ) := by
      apply div_nonneg (mul_nonneg hsp hdt)
      norm_num [TILE]
    by_cases hc : 1 ≤ m.t + (m.speed * dt) / (TILE : ℚ)
    · refine ⟨1, by norm_num, le_refl _, ?_, ?_⟩ <;>
        (simp [update_mover, hmv', hc]; try ring)
    · refine ⟨m.t + (m.speed * dt) / (TILE : ℚ), by linarith, by linarith, ?_, ?_⟩ <;>
        (simp [update_mover, hmv', hc]; try ring)
  · intro hmv' hc
    have hrec : update_mover m dt =
        { m with t := 1, moving := false, r := m.tr, c := m.tc, x := m.tx, y := m.ty } := by
      simp [update_mover, hmv', hc]
    rw [hrec]
    exact ⟨rfl, rfl, rfl, htx, hty, rfl⟩
  · intro hmv'
    obtain ⟨_, _, _, _, hidle', _⟩ := hWF'
    obtain ⟨_, _, hx', hy'⟩ := hidle' hmv'
    exact ⟨hx', hy'⟩

/-- Witness for C4 at a concrete mid-flight mover and `dt = 1/10`. -/
theorem C4_witness :
    (MoverWF moverB ∧ (0:ℚ) ≤ 1 / 10) ∧
    ((moverB.moving = true →
      ∃ τ : ℚ, 0 ≤ τ ∧ τ ≤ 1 ∧
        (update_mover moverB (1 / 10)).x = moverB.sx + (moverB.tx - moverB.sx) * τ ∧
        (update_mover moverB (1 / 10)).y = moverB.sy + (moverB.ty - moverB.sy) * τ) ∧
    (moverB.moving = true → 1 ≤ moverB.t + (moverB.speed * (1 / 10)) / (TILE : ℚ) →
      (update_mover moverB (1 / 10)).moving = false ∧
      (update_mover moverB (1 / 10)).r = moverB.tr ∧
      (update_mover moverB (1 / 10)).c = moverB.tc ∧
      (update_mover moverB (1 / 10)).x = cell_to_px moverB.tc ∧
      (update_mover moverB (1 / 10)).y = cell_to_px moverB.tr ∧
      (update_mover moverB (1 / 10)).t = 1) ∧
    ((update_mover moverB (1 / 10)).moving = false →
      (update_mover moverB (1 / 10)).x = cell_to_px (update_mover moverB (1 / 10)).c ∧
      (update_mover moverB (1 / 10)).y = cell_to_px (update_mover moverB (1 / 10)).r)) :=
  ⟨⟨moverB_WF, by norm_num⟩,
    C4_tween_segment_no_overshoot moverB (1 / 10) moverB_WF (by norm_num)⟩

/-- **C9.** `advance` with `dt = 0` is the identity on every
well-formed `Mover` state (Idle or Moving): no field changes. -/
theorem C9_advance_zero_identity (m : Mover) (hWF : MoverWF m) :
    update_mover m 0 = m := by
  obtain ⟨hsp, ht, htx, hty, hidle, hmov⟩ := hWF
  by_cases hmv : m.moving = false
  · simp [update_mover, hmv]
  · have hmv' : m.moving = true := by revert hmv; cases m.moving <;> simp
    obtain ⟨ht1, hx, hy⟩ := hmov hmv'
    have hc' : ¬ (1:ℚ) ≤ m.t := not_le.mpr ht1
    have he : update_mover m 0 =
        { m with
            t := m.t
            x := m.sx + (m.tx - m.sx) * m.t
            y := m.sy + (m.ty - m.sy) * m.t } := by
      simp [update_mover, hmv', hc']
    rw [he, ← hx, ← hy]

/-- Witness for C9 at the concrete mid-flight mover `moverB`. -/
theorem C9_witness : MoverWF moverB ∧ update_mover moverB 0 = moverB :=
  ⟨moverB_WF, C9_advance_zero_identity moverB moverB_WF⟩

/-- **C7 counterexample.** `moverB` is already Moving, yet `start_move`
is neither rejected nor a no-op: it disturbs the in-flight tween,
resetting the start pixel to the current mid-flight pixel position
(16, the midpoint) and the progress to 0. -/
theorem C7_counterexample :
    moverB.moving = true ∧
    start_move moverB 1 1 ≠ moverB ∧
    (start_move moverB 1 1).sx ≠ moverB.sx ∧
    (start_move moverB 1 1).sx = moverB.x ∧
    (start_move moverB 1 1).t = 0 := by
  rw [moverB_eq]
  refine ⟨rfl, ?_, ?_, ?_, rfl⟩ <;>
    simp [start_move, cell_to_px, TILE, PADDING, Mover.mk.injEq]

/-- **C7 (amended).** `start_move` is unguarded: it performs the
Idle→Moving transition unconditionally, and invoked on a `Mover` that
is already Moving it silently restarts the tween from the mid-flight
pixel position (start pixel := current pixel, progress := 0, target
pixel := canonical pixel of the new target cell), remaining Moving;
well-formedness is nevertheless preserved.  (In the program both call
sites guard on the moving flag, so this only occurs off the game
loop's call pattern.) -/
theorem C7_start_move_unguarded_restart (m : Mover) (nr nc : Int)
    (hmv : m.moving = true) (hWF : MoverWF m) :
    (start_move m nr nc).moving = true ∧
    (start_move m nr nc).sx = m.x ∧
    (start_move m nr nc).sy = m.y ∧
    (start_move m nr nc).t = 0 ∧
    (start_move m nr nc).tx = cell_to_px nc ∧
    (start_move m nr nc).ty = cell_to_px nr ∧
    MoverWF (start_move m nr nc) :=
  ⟨rfl, rfl, rfl, rfl, rfl, rfl, moverWF_start m nr nc hWF⟩

/-- Witness for the amended C7 at the concrete mid-flight mover. -/
theorem C7_witness :
    (moverB.moving = true ∧ MoverWF moverB) ∧
    ((start_move moverB 1 1).moving = true ∧
    (start_move moverB 1 1).sx = moverB.x ∧
    (start_move moverB 1 1).sy = moverB.y ∧
    (start_move moverB 1 1).t = 0 ∧
    (start_move moverB 1 1).tx = cell_to_px 1 ∧
    (start_move moverB 1 1).ty = cell_to_px 1 ∧
    MoverWF (start_move moverB 1 1)) :=
  ⟨⟨moverB_moving, moverB_WF⟩,
    C7_start_move_unguarded_restart moverB 1 1 moverB_moving moverB_WF⟩

end MazeGame

namespace MazeGame

theorem Hg_nonneg (g : Grid) : 0 ≤ Hg g := Int.natCast_nonneg _

theorem Wg_nonneg (g : Grid) : 0 ≤ Wg g := Int.natCast_nonneg _

theorem cellv_road_bounds (g : Grid) (p : Cell) (h : cellv g p = ROADC) :
    p.1.toNat < g.length ∧ p.2.toNat < (g.getD p.1.toNat []).length := by
  unfold cellv at h
  have h1 : p.1.toNat < g.length := by
    by_contra hh
    push_neg at hh
    rw [List.getD_eq_default _ _ hh] at h
    simp [List.getD, ROADC, WALLC] at h
  refine ⟨h1, ?_⟩
  by_contra hh
  push_neg at hh
  rw [List.getD_eq_default _ _ hh] at h
  simp [ROADC, WALLC] at h

theorem mem_ite_singleton {α : Type} (x a : α) (c : Prop) [Decidable c] :
    (x ∈ if c then [a] else []) ↔ c ∧ x = a := by
  split <;> simp_all

theorem mem_borderExits (g : Grid) (hW : 1 ≤ Wg g)
    (hrows : ∀ row ∈ g, Wg g ≤ (row.length : Int)) (p : Cell) :
    p ∈ borderExits g ↔ isBorderRoad g p := by
  obtain ⟨pr, pc⟩ := p
  have hWn := Wg_nonneg g
  have hHn := Hg_nonneg g
  simp only [borderExits, List.mem_append, List.mem_flatMap, List.mem_range,
    mem_ite_singleton, Prod.mk.injEq]
  constructor
  · rintro (⟨c, hc, (⟨hrd, h1, h2⟩ | ⟨hrd, h1, h2⟩)⟩ | ⟨r, hr, (⟨hrd, h1, h2⟩ | ⟨hrd, h1, h2⟩)⟩) <;>
      subst h1 <;> subst h2
    · obtain ⟨hb1, _⟩ := cellv_road_bounds g (0, (c : Int)) hrd
      refine ⟨⟨le_refl _, ?_, ?_, ?_⟩, hrd, Or.inl rfl⟩ <;>
        simp only [Hg, Wg] at hb1 hc ⊢ <;> omega
    · obtain ⟨hb1, _⟩ := cellv_road_bounds g (Hg g - 1, (c : Int)) hrd
      have hgt : 0 < Hg g := by
        unfold Hg at hb1 ⊢
        omega
      refine ⟨⟨by omega, by omega, by positivity, ?_⟩, hrd, Or.inr (Or.inl rfl)⟩
      omega
    · refine ⟨⟨by positivity, ?_, le_refl _, hW⟩, hrd, Or.inr (Or.inr (Or.inl rfl))⟩
      omega
    · refine ⟨⟨by positivity, ?_, by omega, by omega⟩, hrd, Or.inr (Or.inr (Or.inr rfl))⟩
      omega
  · rintro ⟨⟨h0r, hrH, h0c, hcW⟩, hrd, hb⟩
    have hre : ((pr.toNat : Int)) = pr := Int.toNat_of_nonneg h0r
    have hce : ((pc.toNat : Int)) = pc := Int.toNat_of_nonneg h0c
    rcases hb with hb | hb | hb | hb
    · exact Or.inl ⟨pc.toNat, by omega, Or.inl ⟨by rw [hce, ← hb]; exact hrd, hb, hce.symm⟩⟩
    · exact Or.inl ⟨pc.toNat, by omega, Or.inr ⟨by rw [hce, ← hb]; exact hrd, hb, hce.symm⟩⟩
    · exact Or.inr ⟨pr.toNat, by omega, Or.inl ⟨by rw [hre, ← hb]; exact hrd, hre.symm, hb⟩⟩
    · exact Or.inr ⟨pr.toNat, by omega, Or.inr ⟨by rw [hre, ← hb]; exact hrd, hre.symm, hb⟩⟩

theorem convRow_map_num (l : List Int) :
    convRow (l.map Jv.num) = Except.ok l := by
  induction l with
  | nil => rfl
  | cons a l ih =>
    simp [convRow, jToInt, ih, Bind.bind, Except.bind, Pure.pure, Except.pure]

theorem convRows_encode (rows : Grid) :
    convRows (rows.map (fun r => Jv.arr (r.map Jv.num))) = Except.ok rows := by
  induction rows with
  | nil => rfl
  | cons r rest ih =>
    simp [convRows, rowItems, convRow_map_num, ih, Bind.bind, Except.bind,
      Pure.pure, Except.pure]

theorem load_maze_encode (rows : Grid) (h : rows ≠ []) :
    load_maze (encodeGrid rows) = .ok rows := by
  cases rows with
  | nil => exact absurd rfl h
  | cons r rest =>
    have := convRows_encode (r :: rest)
    simp only [List.map_cons] at this
    simpa [encodeGrid, load_maze, Jv.isArr] using this

theorem find_single_exit_eq_iff (g : Grid) (e : Cell) :
    find_single_exit g = .ok e ↔ borderExits g = [e] := by
  constructor
  · intro hok
    unfold find_single_exit at hok
    simp only [] at hok
    rw [show (let ex := borderExits g;
      if ex.length = 1 then Except.ok (ex.headD (0, 0))
      else Except.error ("maze border must contain exactly one exit")) =
      (if (borderExits g).length = 1 then Except.ok ((borderExits g).headD (0, 0))
      else Except.error ("maze border must contain exactly one exit")) from rfl] at hok
    split at hok
    · next hlen =>
        obtain ⟨a, ha⟩ := List.length_eq_one.mp hlen
        rw [ha] at hok ⊢
        simp at hok
        rw [hok]
    · exact absurd hok (by simp)
  · intro hbe
    unfold find_single_exit
    simp [hbe]

end MazeGame

namespace MazeGame

theorem mem_roadCells_iff (g : Grid) (p : Cell) :
    p ∈ roadCells g ↔ walkable g p := by
  unfold walkable inb
  constructor
  · intro hmem
    obtain ⟨r, hr, hmem2⟩ := List.mem_flatMap.mp hmem
    rw [List.mem_range] at hr
    obtain ⟨cc, hcc, hf⟩ := List.mem_filterMap.mp hmem2
    rw [List.mem_range] at hcc
    split at hf
    · next hroad =>
        have hpe := Option.some.inj hf
        rw [← hpe]
        refine ⟨⟨?_, ?_, ?_, ?_⟩, hroad⟩ <;>
          simp only [Hg, Wg] at hr hcc ⊢ <;> omega
    · cases hf
  · rintro ⟨⟨h0r, hrH, h0c, hcW⟩, hroad⟩
    have hre : ((p.1.toNat : Int)) = p.1 := Int.toNat_of_nonneg h0r
    have hce : ((p.2.toNat : Int)) = p.2 := Int.toNat_of_nonneg h0c
    refine List.mem_flatMap.mpr
      ⟨p.1.toNat, ?_, List.mem_filterMap.mpr ⟨p.2.toNat, ?_, ?_⟩⟩
    · rw [List.mem_range]
      simp only [Hg] at hrH ⊢
      omega
    · rw [List.mem_range]
      simp only [Wg] at hcW ⊢
      omega
    · rw [hre, hce]
      simp only [hroad, if_pos]

theorem random_road_ok (g : Grid) (rs : Rng) (c : Cell) (rs' : Rng)
    (h : random_road g rs = .ok (c, rs')) :
    c ∈ roadCells g ∧ rs' = rs.tail := by
  unfold random_road at h
  by_cases hlen : (roadCells g).length = 0
  · simp [hlen] at h
  · simp only [hlen, if_false] at h
    have hinj := Except.ok.inj h
    have hc := congrArg Prod.fst hinj
    have hrs := congrArg Prod.snd hinj
    simp only at hc hrs
    have hlt : rs.headD 0 % (roadCells g).length < (roadCells g).length :=
      Nat.mod_lt _ (Nat.pos_of_ne_zero hlen)
    constructor
    · rw [← hc, List.getD_eq_getElem _ _ hlt]
      exact List.getElem_mem hlt
    · exact hrs.symm

theorem resampleMonster_ok (g : Grid) (ps exitC : Cell) (fuel : Nat)
    (ms : Cell) (rs : Rng) (m' : Cell) (rs' : Rng)
    (h : resampleMonster g ps exitC fuel ms rs = .ok (m', rs')) :
    m' ≠ ps ∧ m' ≠ exitC ∧ (m' = ms ∨ m' ∈ roadCells g) := by
  induction fuel generalizing ms rs with
  | zero =>
    unfold resampleMonster at h
    by_cases hcol : ms = ps ∨ ms = exitC
    · simp [hcol] at h
    · simp only [hcol, if_false] at h
      simp at h
      push_neg at hcol
      obtain ⟨h1, _⟩ := h
      exact ⟨h1 ▸ hcol.1, h1 ▸ hcol.2, Or.inl h1.symm⟩
  | succ n ih =>
    unfold resampleMonster at h
    by_cases hcol : ms = ps ∨ ms = exitC
    · simp only [hcol, if_true] at h
      cases hrr : random_road g rs with
      | error err => rw [hrr] at h; cases h
      | ok pr =>
        rw [hrr] at h
        obtain ⟨hmem, _⟩ := random_road_ok g rs pr.1 pr.2 (by rw [hrr])
        obtain ⟨a, b, c⟩ := ih pr.1 pr.2 h
        exact ⟨a, b, Or.inr (c.elim (fun hh => hh ▸ hmem) id)⟩
    · simp only [hcol, if_false] at h
      simp at h
      push_neg at hcol
      obtain ⟨h1, _⟩ := h
      exact ⟨h1 ▸ hcol.1, h1 ▸ hcol.2, Or.inl h1.symm⟩

theorem pick_spawns_ok (g : Grid) (exitC : Cell) (rs : Rng) (fuel : Nat)
    (p m : Cell) (rs' : Rng)
    (h : pick_spawns g exitC rs fuel = .ok (p, m, rs')) :
    p ∈ roadCells g ∧ m ∈ roadCells g ∧ m ≠ p ∧ m ≠ exitC := by
  unfold pick_spawns at h
  cases h1 : random_road g rs with
  | error e1 => rw [h1] at h; cases h
  | ok pr =>
    rw [h1] at h
    simp only [Bind.bind, Except.bind] at h
    cases h2 : random_road g pr.2 with
    | error e2 => rw [h2] at h; cases h
    | ok mr =>
      rw [h2] at h
      dsimp only at h
      cases h3 : resampleMonster g pr.1 exitC fuel mr.1 mr.2 with
      | error e3 => rw [h3] at h; cases h
      | ok msr =>
        rw [h3] at h
        dsimp only at h
        simp only [Pure.pure, Except.pure] at h
        cases h
        obtain ⟨hpmem, _⟩ := random_road_ok g rs pr.1 pr.2 (by rw [h1])
        obtain ⟨hne1, hne2, hmem⟩ :=
          resampleMonster_ok g pr.1 exitC fuel mr.1 mr.2 msr.1 msr.2 (by rw [h3])
        obtain ⟨hmmem, _⟩ := random_road_ok g pr.2 mr.1 mr.2 (by rw [h2])
        exact ⟨hpmem, hmem.elim (fun hh => hh ▸ hmmem) id, hne1, hne2⟩

end MazeGame

namespace MazeGame

/-- **C6 counterexample.** The ragged grid `gridC6` (row 1 longer than
row 0) is not rectangular, yet the load pipeline accepts it:
`load_maze` succeeds (it performs no rectangularity check) and
`find_single_exit` succeeds as well, returning (0,1) — the claim
required an `InvalidMaze` failure for every non-rectangular input. -/
theorem C6_counterexample :
    load_maze (encodeGrid gridC6) = .ok gridC6 ∧
    ¬ rect gridC6 ∧
    find_single_exit gridC6 = .ok (0, 1) := by
  refine ⟨by decide, by decide, by decide⟩

/-- **C6 (amended).** `load_maze` fails exactly when the JSON value is
not an array, is an empty array, or its first row is not an array —
rectangularity is never validated, and every plain nonempty 2D int
matrix loads back unchanged (ragged or not).  The border-exit
invariant is enforced separately by `find_single_exit`, which succeeds
returning `e` iff its border scan (measured with `W` = first-row
length) produced exactly `[e]`; when every row is at least `W` wide
(so every C++ border access is in bounds) the scan list's members are
exactly the in-bounds border Road cells. -/
theorem C6_load_no_rect_check_unique_border_exit :
    (∀ n : Int, load_maze (Jv.num n) = .error ("maze.json must be a 2D array")) ∧
    (load_maze (Jv.arr []) = .error ("maze.json must be a 2D array")) ∧
    (∀ (k : Int) (rest : List Jv),
      load_maze (Jv.arr (Jv.num k :: rest)) = .error ("maze.json must be a 2D array")) ∧
    (∀ rows : Grid, rows ≠ [] → load_maze (encodeGrid rows) = .ok rows) ∧
    (∀ (g : Grid) (e : Cell), find_single_exit g = .ok e ↔ borderExits g = [e]) ∧
    (∀ g : Grid, 1 ≤ Wg g → (∀ row ∈ g, Wg g ≤ (row.length : Int)) →
      ∀ p : Cell, p ∈ borderExits g ↔ isBorderRoad g p) :=
  ⟨fun _ => rfl, rfl, fun _ _ => rfl, load_maze_encode,
    find_single_exit_eq_iff, mem_borderExits⟩

/-- Witness for the amended C6 at the concrete ragged grid. -/
theorem C6_witness :
    (gridC6 ≠ [] ∧ 1 ≤ Wg gridC6 ∧ (∀ row ∈ gridC6, Wg gridC6 ≤ (row.length : Int))) ∧
    (load_maze (encodeGrid gridC6) = .ok gridC6 ∧
      (((0 : Int), (1 : Int)) ∈ borderExits gridC6 ↔ isBorderRoad gridC6 (0, 1))) :=
  ⟨⟨by decide, by decide, by decide⟩,
   ⟨C6_load_no_rect_check_unique_border_exit.2.2.2.1 gridC6 (by decide),
    C6_load_no_rect_check_unique_border_exit.2.2.2.2.2 gridC6 (by decide) (by decide) (0, 1)⟩⟩

/-- **C8 counterexample.** On `gridC8` the unique exit is the road
cell (1,0), and with RNG draws `[0, 1]` the spawn selection returns
player spawn (1,0) — equal to the exit — while the monster spawn
(1,1) is duly resampled away from both.  The claim said neither spawn
can equal the exit; the player spawn is never checked against it. -/
theorem C8_counterexample :
    find_single_exit gridC8 = .ok (1, 0) ∧
    pick_spawns gridC8 (1, 0) [0, 1] 5 = .ok ((1, 0), (1, 1), []) := by
  refine ⟨by decide, by decide⟩

/-- **C8 (amended).** Whenever the spawn selection of `main` /
`reset_round` succeeds, both spawns are walkable Road cells and the
adversary spawn differs from the player spawn and from the exit cell;
the player spawn, however, is only guaranteed to be a Road cell — it
may coincide with the exit (resampling applies to the adversary spawn
only). -/
theorem C8_spawns_road_monster_avoids_exit
    (g : Grid) (exitC : Cell) (rs : Rng) (fuel : Nat) (p m : Cell) (rs' : Rng)
    (h : pick_spawns g exitC rs fuel = .ok (p, m, rs')) :
    walkable g p ∧ walkable g m ∧ m ≠ p ∧ m ≠ exitC := by
  obtain ⟨hp, hm, hne, hnex⟩ := pick_spawns_ok g exitC rs fuel p m rs' h
  exact ⟨(mem_roadCells_iff g p).mp hp, (mem_roadCells_iff g m).mp hm, hne, hnex⟩

/-- Witness for the amended C8 at the concrete grid and RNG stream. -/
theorem C8_witness :
    pick_spawns gridC8 (1, 0) [0, 1] 5 = .ok ((1, 0), (1, 1), []) ∧
    (walkable gridC8 (1, 0) ∧ walkable gridC8 (1, 1) ∧
      ((1, 1) : Cell) ≠ (1, 0) ∧ ((1, 1) : Cell) ≠ (1, 0)) :=
  ⟨by decide,
    C8_spawns_road_monster_avoids_exit gridC8 (1, 0) [0, 1] 5 (1, 0) (1, 1) [] (by decide)⟩

end MazeGame

namespace MazeGame

theorem inputPhase_of_terminal (st : GState) (i : MoveIntent)
    (h : st.victory = true ∨ st.game_over = true) : inputPhase st i = st := by
  unfold inputPhase
  rcases h with h | h <;> simp [h]

theorem monsterPhase_of_terminal (st : GState)
    (h : st.victory = true ∨ st.game_over = true) : monsterPhase st = st := by
  unfold monsterPhase
  rcases h with h | h <;> simp [h]

theorem movePhase_of_terminal (st : GState) (dt : ℚ)
    (h : st.victory = true ∨ st.game_over = true) : movePhase st dt = st := by
  unfold movePhase
  rcases h with h | h <;> simp [h]

theorem coinPhase_of_terminal (st : GState)
    (h : st.victory = true ∨ st.game_over = true) : coinPhase st = st := by
  unfold coinPhase
  rcases h with h | h <;> simp [h]

theorem winLosePhase_of_terminal (st : GState)
    (h : st.victory = true ∨ st.game_over = true) : winLosePhase st = st := by
  unfold winLosePhase
  rcases h with h | h <;> simp [h]

theorem freezePhase_keeps (st : GState) :
    (freezePhase st).victory = st.victory ∧
    (freezePhase st).game_over = st.game_over ∧
    (freezePhase st).score = st.score ∧
    (freezePhase st).coins_collected = st.coins_collected := by
  unfold freezePhase
  split <;> exact ⟨rfl, rfl, rfl, rfl⟩

theorem freezePhase_of_ready (st : GState) (h : st.end_stats_ready = true) :
    freezePhase st = st := by
  unfold freezePhase
  simp [h]

theorem inputPhase_snapshot (st : GState) (i : MoveIntent) :
    (inputPhase st i).last_score = st.last_score ∧
    (inputPhase st i).last_coins_collected = st.last_coins_collected ∧
    (inputPhase st i).end_stats_ready = st.end_stats_ready ∧
    (inputPhase st i).victory = st.victory ∧
    (inputPhase st i).game_over = st.game_over := by
  unfold inputPhase
  dsimp only
  split
  · split <;> exact ⟨rfl, rfl, rfl, rfl, rfl⟩
  · exact ⟨rfl, rfl, rfl, rfl, rfl⟩

theorem monsterPhase_snapshot (st : GState) :
    (monsterPhase st).last_score = st.last_score ∧
    (monsterPhase st).last_coins_collected = st.last_coins_collected ∧
    (monsterPhase st).end_stats_ready = st.end_stats_ready ∧
    (monsterPhase st).victory = st.victory ∧
    (monsterPhase st).game_over = st.game_over := by
  unfold monsterPhase
  dsimp only
  split
  · split <;> exact ⟨rfl, rfl, rfl, rfl, rfl⟩
  · exact ⟨rfl, rfl, rfl, rfl, rfl⟩

theorem movePhase_snapshot (st : GState) (dt : ℚ) :
    (movePhase st dt).last_score = st.last_score ∧
    (movePhase st dt).last_coins_collected = st.last_coins_collected ∧
    (movePhase st dt).end_stats_ready = st.end_stats_ready ∧
    (movePhase st dt).victory = st.victory ∧
    (movePhase st dt).game_over = st.game_over := by
  unfold movePhase
  split <;> exact ⟨rfl, rfl, rfl, rfl, rfl⟩

theorem coinPhase_snapshot (st : GState) :
    (coinPhase st).last_score = st.last_score ∧
    (coinPhase st).last_coins_collected = st.last_coins_collected ∧
    (coinPhase st).end_stats_ready = st.end_stats_ready ∧
    (coinPhase st).victory = st.victory ∧
    (coinPhase st).game_over = st.game_over := by
  unfold coinPhase
  dsimp only
  split <;> exact ⟨rfl, rfl, rfl, rfl, rfl⟩

theorem winLosePhase_snapshot (st : GState) :
    (winLosePhase st).last_score = st.last_score ∧
    (winLosePhase st).last_coins_collected = st.last_coins_collected ∧
    (winLosePhase st).end_stats_ready = st.end_stats_ready ∧
    (winLosePhase st).score = st.score ∧
    (winLosePhase st).coins_collected = st.coins_collected := by
  unfold winLosePhase
  split
  · split <;> (dsimp only; split <;> exact ⟨rfl, rfl, rfl, rfl, rfl⟩)
  · exact ⟨rfl, rfl, rfl, rfl, rfl⟩

theorem roundState_ne_playing_iff (st : GState) :
    roundState st ≠ RoundState.Playing ↔
      (st.victory = true ∨ st.game_over = true) := by
  unfold roundState
  cases hv : st.victory <;> cases hg : st.game_over <;> simp

end MazeGame

namespace MazeGame

theorem roundState_playing_iff (st : GState) :
    roundState st = RoundState.Playing ↔
      (st.victory = false ∧ st.game_over = false) := by
  unfold roundState
  cases hv : st.victory <;> cases hg : st.game_over <;> simp

theorem tick_of_terminal (st : GState) (i : MoveIntent) (dt : ℚ)
    (h : st.victory = true ∨ st.game_over = true) :
    (tick st i dt).victory = st.victory ∧ (tick st i dt).game_over = st.game_over := by
  unfold tick
  rw [inputPhase_of_terminal st i h, monsterPhase_of_terminal st h,
    movePhase_of_terminal st dt h, coinPhase_of_terminal st h,
    winLosePhase_of_terminal st h]
  exact ⟨(freezePhase_keeps st).1, (freezePhase_keeps st).2.1⟩

theorem tickPre_snapshot (st : GState) (i : MoveIntent) (dt : ℚ) :
    (winLosePhase (coinPhase (movePhase (monsterPhase (inputPhase st i)) dt))).last_score
        = st.last_score ∧
    (winLosePhase (coinPhase (movePhase (monsterPhase (inputPhase st i)) dt))).last_coins_collected
        = st.last_coins_collected ∧
    (winLosePhase (coinPhase (movePhase (monsterPhase (inputPhase st i)) dt))).end_stats_ready
        = st.end_stats_ready := by
  have h1 := inputPhase_snapshot st i
  have h2 := monsterPhase_snapshot (inputPhase st i)
  have h3 := movePhase_snapshot (monsterPhase (inputPhase st i)) dt
  have h4 := coinPhase_snapshot (movePhase (monsterPhase (inputPhase st i)) dt)
  have h5 := winLosePhase_snapshot (coinPhase (movePhase (monsterPhase (inputPhase st i)) dt))
  exact ⟨h5.1.trans (h4.1.trans (h3.1.trans (h2.1.trans h1.1))),
    h5.2.1.trans (h4.2.1.trans (h3.2.1.trans (h2.2.1.trans h1.2.1))),
    h5.2.2.1.trans (h4.2.2.1.trans (h3.2.2.1.trans (h2.2.2.1.trans h1.2.2.1)))⟩

theorem tick_snapshot_ready (st : GState) (i : MoveIntent) (dt : ℚ)
    (h : st.end_stats_ready = true) :
    (tick st i dt).last_score = st.last_score ∧
    (tick st i dt).last_coins_collected = st.last_coins_collected ∧
    (tick st i dt).end_stats_ready = true := by
  have hks := tickPre_snapshot st i dt
  have hpr : (winLosePhase (coinPhase (movePhase (monsterPhase (inputPhase st i)) dt))).end_stats_ready = true :=
    hks.2.2.trans h
  have he : tick st i dt =
      winLosePhase (coinPhase (movePhase (monsterPhase (inputPhase st i)) dt)) := by
    unfold tick
    exact freezePhase_of_ready _ hpr
  rw [he]
  exact ⟨hks.1, hks.2.1, hpr⟩

/-- **C3.** Terminal checks run only while the round is Playing (in a
terminal state a tick leaves both flags untouched); and in any Playing
state in which the (idle) player stands on the exit cell the win/lose
check step yields round state Victory — not Defeat — including the
tick in which the (idle) adversary occupies the same cell, where the
defeat flag is also set but victory, checked first, takes precedence
in the derived round state. -/
theorem C3_victory_checked_first (st : GState) (i : MoveIntent) (dt : ℚ) :
    (roundState st ≠ RoundState.Playing →
      (tick st i dt).victory = st.victory ∧ (tick st i dt).game_over = st.game_over) ∧
    (roundState st = RoundState.Playing →
      st.player.moving = false → st.player.r = st.exitC.1 → st.player.c = st.exitC.2 →
      roundState (winLosePhase st) = RoundState.Victory ∧
      roundState (winLosePhase st) ≠ RoundState.Defeat ∧
      (st.monster.moving = false → st.player.r = st.monster.r → st.player.c = st.monster.c →
        (winLosePhase st).victory = true ∧ (winLosePhase st).game_over = true)) := by
  constructor
  · intro hne
    exact tick_of_terminal st i dt ((roundState_ne_playing_iff st).mp hne)
  · intro hpl hpm hr hc
    obtain ⟨hv, hg⟩ := (roundState_playing_iff st).mp hpl
    have hst1 : (if st.player.moving = false ∧ st.player.r = st.exitC.1 ∧
        st.player.c = st.exitC.2 then
        ({ st with victory := true } : GState) else st) = { st with victory := true } :=
      if_pos ⟨hpm, hr, hc⟩
    unfold winLosePhase
    rw [if_pos ⟨hv, hg⟩]
    dsimp only
    rw [hst1]
    by_cases hcol : st.player.moving = false ∧ st.monster.moving = false ∧
        st.player.r = st.monster.r ∧ st.player.c = st.monster.c
    · have hcol' : ({ st with victory := true } : GState).player.moving = false ∧
          ({ st with victory := true } : GState).monster.moving = false ∧
          ({ st with victory := true } : GState).player.r = ({ st with victory := true } : GState).monster.r ∧
          ({ st with victory := true } : GState).player.c = ({ st with victory := true } : GState).monster.c := hcol
      rw [if_pos hcol']
      refine ⟨rfl, by simp [roundState], fun _ _ _ => ⟨rfl, rfl⟩⟩
    · have hcol' : ¬ (({ st with victory := true } : GState).player.moving = false ∧
          ({ st with victory := true } : GState).monster.moving = false ∧
          ({ st with victory := true } : GState).player.r = ({ st with victory := true } : GState).monster.r ∧
          ({ st with victory := true } : GState).player.c = ({ st with victory := true } : GState).monster.c) :=
        fun hh => hcol hh
      rw [if_neg hcol']
      refine ⟨rfl, by simp [roundState], fun hmm hrr hcc => ?_⟩
      exact absurd ⟨hpm, hmm, hrr, hcc⟩ hcol

/-- Witness for C3 at the concrete state with both actors idle on the
exit cell. -/
theorem C3_witness :
    (roundState gstateW2 = RoundState.Playing ∧ gstateW2.player.moving = false ∧
      gstateW2.player.r = gstateW2.exitC.1 ∧ gstateW2.player.c = gstateW2.exitC.2 ∧
      gstateW2.monster.moving = false ∧ gstateW2.player.r = gstateW2.monster.r ∧
      gstateW2.player.c = gstateW2.monster.c) ∧
    (roundState (winLosePhase gstateW2) = RoundState.Victory ∧
      roundState (winLosePhase gstateW2) ≠ RoundState.Defeat ∧
      (winLosePhase gstateW2).victory = true ∧ (winLosePhase gstateW2).game_over = true) :=
  ⟨⟨rfl, rfl, rfl, rfl, rfl, rfl, rfl⟩, by
    obtain ⟨h1, h2, h3⟩ :=
      (C3_victory_checked_first gstateW2 MoveIntent.nomove 0).2 rfl rfl rfl rfl
    exact ⟨h1, h2, (h3 rfl rfl rfl).1, (h3 rfl rfl rfl).2⟩⟩

theorem tick_seq_snapshot_ready (steps : List (MoveIntent × ℚ)) (st : GState)
    (h : st.end_stats_ready = true) :
    (steps.foldl (fun s td => tick s td.1 td.2) st).last_score = st.last_score ∧
    (steps.foldl (fun s td => tick s td.1 td.2) st).last_coins_collected
      = st.last_coins_collected ∧
    (steps.foldl (fun s td => tick s td.1 td.2) st).end_stats_ready = true := by
  induction steps generalizing st with
  | nil => exact ⟨rfl, rfl, h⟩
  | cons td rest ih =>
    obtain ⟨ha, hb, hc⟩ := tick_snapshot_ready st td.1 td.2 h
    obtain ⟨ia, ib, ic⟩ := ih (tick st td.1 td.2) hc
    exact ⟨ia.trans ha, ib.trans hb, ic⟩

/-- **C5.** The frozen end-of-round snapshot is written exactly once:
on any tick that leaves Playing with the snapshot not yet taken, the
tick copies the live counters into `last_score` /
`last_coins_collected` and sets `end_stats_ready`; on a tick that
stays in Playing nothing is written; once `end_stats_ready` holds,
any sequence of further ticks leaves the snapshot unchanged; and
`reset_round` clears only the readiness flag (restarting the
lifecycle), not the values. -/
theorem C5_snapshot_frozen_once (st : GState) (i : MoveIntent) (dt : ℚ) :
    (st.end_stats_ready = false → roundState (tick st i dt) ≠ RoundState.Playing →
      (tick st i dt).end_stats_ready = true ∧
      (tick st i dt).last_score = (tick st i dt).score ∧
      (tick st i dt).last_coins_collected = (tick st i dt).coins_collected) ∧
    (st.end_stats_ready = false → roundState (tick st i dt) = RoundState.Playing →
      (tick st i dt).end_stats_ready = false ∧
      (tick st i dt).last_score = st.last_score ∧
      (tick st i dt).last_coins_collected = st.last_coins_collected) ∧
    (∀ steps : List (MoveIntent × ℚ), st.end_stats_ready = true →
      (steps.foldl (fun s td => tick s td.1 td.2) st).last_score = st.last_score ∧
      (steps.foldl (fun s td => tick s td.1 td.2) st).last_coins_collected
        = st.last_coins_collected ∧
      (steps.foldl (fun s td => tick s td.1 td.2) st).end_stats_ready = true) ∧
    (∀ (nm : Grid) (ne p m : Cell) (nc : List Coin),
      (reset_round st nm ne p m nc).end_stats_ready = false ∧
      (reset_round st nm ne p m nc).last_score = st.last_score ∧
      (reset_round st nm ne p m nc).last_coins_collected = st.last_coins_collected) := by
  have hks := tickPre_snapshot st i dt
  have hkeep := freezePhase_keeps
    (winLosePhase (coinPhase (movePhase (monsterPhase (inputPhase st i)) dt)))
  have hte : tick st i dt =
      freezePhase (winLosePhase (coinPhase (movePhase (monsterPhase (inputPhase st i)) dt))) := rfl
  refine ⟨?_, ?_, ?_, ?_⟩
  · intro hrdy hne
    rw [roundState_ne_playing_iff] at hne
    have hterm : (winLosePhase (coinPhase (movePhase (monsterPhase (inputPhase st i)) dt))).victory = true ∨
        (winLosePhase (coinPhase (movePhase (monsterPhase (inputPhase st i)) dt))).game_over = true := by
      rcases hne with h | h
      · exact Or.inl ((hkeep.1.symm.trans (hte ▸ h)))
      · exact Or.inr ((hkeep.2.1.symm.trans (hte ▸ h)))
    have hready : (winLosePhase (coinPhase (movePhase (monsterPhase (inputPhase st i)) dt))).end_stats_ready = false :=
      hks.2.2.trans hrdy
    have hfr : freezePhase (winLosePhase (coinPhase (movePhase (monsterPhase (inputPhase st i)) dt))) =
        { winLosePhase (coinPhase (movePhase (monsterPhase (inputPhase st i)) dt)) with
            last_coins_collected := (winLosePhase (coinPhase (movePhase (monsterPhase (inputPhase st i)) dt))).coins_collected
            last_score := (winLosePhase (coinPhase (movePhase (monsterPhase (inputPhase st i)) dt))).score
            end_stats_ready := true } := by
      unfold freezePhase
      rw [if_pos ⟨hterm, hready⟩]
    rw [hte, hfr]
    exact ⟨rfl, rfl, rfl⟩
  · intro hrdy hpl
    rw [roundState_playing_iff] at hpl
    have hnt : ¬ (((winLosePhase (coinPhase (movePhase (monsterPhase (inputPhase st i)) dt))).victory = true ∨
        (winLosePhase (coinPhase (movePhase (monsterPhase (inputPhase st i)) dt))).game_over = true) ∧
        (winLosePhase (coinPhase (movePhase (monsterPhase (inputPhase st i)) dt))).end_stats_ready = false) := by
      rintro ⟨hterm, _⟩
      rcases hterm with h | h
      · have hft := hkeep.1.trans h
        rw [hte] at hpl
        rw [hpl.1] at hft
        exact Bool.false_ne_true hft
      · have hft := hkeep.2.1.trans h
        rw [hte] at hpl
        rw [hpl.2] at hft
        exact Bool.false_ne_true hft
    have hfr : freezePhase (winLosePhase (coinPhase (movePhase (monsterPhase (inputPhase st i)) dt))) =
        winLosePhase (coinPhase (movePhase (monsterPhase (inputPhase st i)) dt)) := by
      unfold freezePhase
      rw [if_neg hnt]
    rw [hte, hfr]
    exact ⟨hks.2.2.trans hrdy, hks.1, hks.2.1⟩
  · intro steps h
    exact tick_seq_snapshot_ready steps st h
  · intro nm ne p m nc
    exact ⟨rfl, rfl, rfl⟩

/-- Witness for C5 at a concrete frozen terminal state and a
one-element tick sequence. -/
theorem C5_witness :
    (gstateF.end_stats_ready = true) ∧
    (([((MoveIntent.nomove : MoveIntent), (0 : ℚ))].foldl (fun s td => tick s td.1 td.2) gstateF).last_score = gstateF.last_score ∧
      ([((MoveIntent.nomove : MoveIntent), (0 : ℚ))].foldl (fun s td => tick s td.1 td.2) gstateF).last_coins_collected = gstateF.last_coins_collected ∧
      ([((MoveIntent.nomove : MoveIntent), (0 : ℚ))].foldl (fun s td => tick s td.1 td.2) gstateF).end_stats_ready = true) :=
  ⟨rfl, (C5_snapshot_frozen_once gstateF MoveIntent.nomove 0).2.2.1
    [((MoveIntent.nomove : MoveIntent), (0 : ℚ))] rfl⟩

end MazeGame

namespace MazeGame

theorem adjacent_symm {p q : Cell} (h : adjacent p q) : adjacent q p := by
  unfold adjacent at h ⊢
  omega

theorem mazeAdj_iff (g : Grid) (p q : Cell) :
    (mazeGraph g).Adj p q ↔ adjacent p q ∧ walkable g p ∧ walkable g q :=
  Iff.rfl

theorem passable_iff_walkable (g : Grid) (hbin : binaryGrid g) (p : Cell) :
    passable g p ↔ walkable g p := by
  constructor
  · rintro ⟨hib, hnw⟩
    refine ⟨hib, ?_⟩
    have h1 : p.1.toNat < g.length := by
      obtain ⟨h0r, hrH, h0c, hcW⟩ := hib
      simp only [Hg] at hrH
      omega
    have hrow := List.getD_eq_getElem g [] h1
    by_cases h2 : p.2.toNat < (g.getD p.1.toNat []).length
    · have hcell := List.getD_eq_getElem (g.getD p.1.toNat []) WALLC h2
      have hmem : (g.getD p.1.toNat [])[p.2.toNat] ∈ g.getD p.1.toNat [] :=
        List.getElem_mem h2
      have hrmem : g.getD p.1.toNat [] ∈ g := by
        rw [hrow]
        exact List.getElem_mem h1
      have := hbin _ hrmem _ hmem
      unfold cellv at hnw ⊢
      rw [hcell] at hnw ⊢
      rcases this with h | h
      · exact h
      · exact absurd h hnw
    · push_neg at h2
      have := List.getD_eq_default (g.getD p.1.toNat []) WALLC h2
      unfold cellv at hnw
      exact absurd this hnw
  · rintro ⟨hib, hrd⟩
    refine ⟨hib, ?_⟩
    rw [hrd]
    unfold ROADC WALLC
    omega

theorem walkable_ne_sentinel (g : Grid) (p : Cell) (h : walkable g p) :
    p ≠ ((-1 : Int), (-1 : Int)) := by
  obtain ⟨⟨h0r, _, _, _⟩, _⟩ := h
  intro hc
  rw [hc] at h0r
  exact absurd h0r (by norm_num)

theorem adjacent_iff_dirs (p q : Cell) :
    adjacent q p ↔ ∃ d ∈ dirs, q = (p.1 + d.1, p.2 + d.2) := by
  unfold adjacent dirs
  constructor
  · intro h
    obtain ⟨qr, qc⟩ := q
    obtain ⟨pr, pc⟩ := p
    simp only [Prod.mk.injEq, List.mem_cons, List.not_mem_nil, or_false,
      List.mem_singleton]
    by_cases h1 : qr = pr - 1
    · exact ⟨(-1, 0), by tauto, by simp at h ⊢; omega⟩
    · by_cases h2 : qr = pr + 1
      · exact ⟨(1, 0), by tauto, by simp at h ⊢; omega⟩
      · by_cases h3 : qc = pc - 1
        · exact ⟨(0, -1), by tauto, by simp at h ⊢; omega⟩
        · exact ⟨(0, 1), by tauto, by simp at h ⊢; omega⟩
  · rintro ⟨d, hd, rfl⟩
    simp only [List.mem_cons, List.not_mem_nil, or_false, List.mem_singleton] at hd
    rcases hd with rfl | rfl | rfl | rfl <;> simp <;> omega

theorem dist_triangle3 (g : Grid) {u v w : Cell}
    (h1 : (mazeGraph g).Reachable u v) (h2 : (mazeGraph g).Reachable v w) :
    (mazeGraph g).dist u w ≤ (mazeGraph g).dist u v + (mazeGraph g).dist v w := by
  obtain ⟨p1, hp1⟩ := h1.exists_walk_length_eq_dist
  obtain ⟨p2, hp2⟩ := h2.exists_walk_length_eq_dist
  have := SimpleGraph.dist_le (p1.append p2)
  rwa [SimpleGraph.Walk.length_append, hp1, hp2] at this

theorem dist_succ_exists (g : Grid) {u v : Cell}
    (h : (mazeGraph g).Reachable u v) (hne : u ≠ v) :
    ∃ z, (mazeGraph g).Adj u z ∧ (mazeGraph g).Reachable z v ∧
      (mazeGraph g).dist z v + 1 = (mazeGraph g).dist u v := by
  obtain ⟨p, hp⟩ := h.exists_walk_length_eq_dist
  cases p with
  | nil => exact absurd rfl hne
  | cons ha p' =>
    next z =>
      refine ⟨z, ha, p'.reachable, ?_⟩
      rw [SimpleGraph.Walk.length_cons] at hp
      have hle : (mazeGraph g).dist z v ≤ p'.length := SimpleGraph.dist_le p'
      have hge : (mazeGraph g).dist u v ≤ 1 + (mazeGraph g).dist z v := by
        have := dist_triangle3 g (ha.reachable) p'.reachable
        rwa [SimpleGraph.dist_eq_one_iff_adj.mpr ha] at this
      omega

theorem hM_adj_le (t : Cell) {a b : Cell} (h : adjacent a b) :
    hManhattan t a ≤ hManhattan t b + 1 := by
  unfold hManhattan
  unfold adjacent at h
  rw [Int.abs_eq_natAbs, Int.abs_eq_natAbs, Int.abs_eq_natAbs, Int.abs_eq_natAbs]
  omega

theorem hM_le_length (g : Grid) {u v : Cell} (p : (mazeGraph g).Walk u v) :
    hManhattan v u ≤ (p.length : Int) := by
  induction p with
  | nil =>
    unfold hManhattan
    simp
  | @cons a b c ha p' ih =>
    rw [SimpleGraph.Walk.length_cons]
    have h1 := hM_adj_le c ha.1
    push_cast
    push_cast at ih
    omega

theorem hM_le_dist (g : Grid) {u v : Cell} (h : (mazeGraph g).Reachable u v) :
    hManhattan v u ≤ ((mazeGraph g).dist u v : Int) := by
  obtain ⟨p, hp⟩ := h.exists_walk_length_eq_dist
  have := hM_le_length g p
  rw [hp] at this
  exact this

theorem hM_self (t : Cell) : hManhattan t t = 0 := by
  unfold hManhattan
  simp

theorem hM_nonneg (t p : Cell) : 0 ≤ hManhattan t p := by
  unfold hManhattan
  positivity

theorem hM_triangle (t s x : Cell) :
    hManhattan t s ≤ hManhattan s x + hManhattan t x := by
  unfold hManhattan
  rw [Int.abs_eq_natAbs, Int.abs_eq_natAbs, Int.abs_eq_natAbs, Int.abs_eq_natAbs,
    Int.abs_eq_natAbs, Int.abs_eq_natAbs]
  omega

end MazeGame

namespace MazeGame

theorem mem_cellFinset (g : Grid) (p : Cell) : p ∈ cellFinset g ↔ inb g p := by
  unfold cellFinset inb
  obtain ⟨pr, pc⟩ := p
  rw [Finset.mem_product, Finset.mem_Icc, Finset.mem_Icc]
  omega

theorem card_cellFinset (g : Grid) :
    (cellFinset g).card = (Hg g).toNat * (Wg g).toNat := by
  unfold cellFinset
  rw [Finset.card_product, Int.card_Icc, Int.card_Icc]
  have h1 : Hg g - 1 + 1 - 0 = Hg g := by ring
  have h2 : Wg g - 1 + 1 - 0 = Wg g := by ring
  rw [h1, h2]

theorem walk_support_walkable (g : Grid) {u v : Cell} (hu : walkable g u)
    (p : (mazeGraph g).Walk u v) : ∀ x ∈ p.support, walkable g x := by
  induction p with
  | nil =>
    intro x hx
    rw [SimpleGraph.Walk.support_nil, List.mem_singleton] at hx
    rwa [hx]
  | @cons a b c ha p' ih =>
    intro x hx
    rw [SimpleGraph.Walk.support_cons, List.mem_cons] at hx
    rcases hx with rfl | hx
    · exact hu
    · exact ih ha.2.2 x hx

theorem dist_lt_gridsize (g : Grid) {u v : Cell} (hu : walkable g u)
    (h : (mazeGraph g).Reachable u v) :
    ((mazeGraph g).dist u v : Int) < Hg g * Wg g := by
  obtain ⟨p, hp⟩ := h.exists_walk_length_eq_dist
  have hpath : p.IsPath := SimpleGraph.Walk.isPath_of_length_eq_dist p hp
  have hnodup : p.support.Nodup := hpath.support_nodup
  have hsub : p.support.toFinset ⊆ cellFinset g := by
    intro x hx
    rw [List.mem_toFinset] at hx
    exact (mem_cellFinset g x).mpr (walk_support_walkable g hu p x hx).1
  have hcard : p.support.toFinset.card ≤ (cellFinset g).card :=
    Finset.card_le_card hsub
  rw [List.toFinset_card_of_nodup hnodup, SimpleGraph.Walk.length_support,
    card_cellFinset] at hcard
  rw [← hp]
  have hH : ((Hg g).toNat : Int) = Hg g := Int.toNat_of_nonneg (Hg_nonneg g)
  have hW : ((Wg g).toNat : Int) = Wg g := Int.toNat_of_nonneg (Wg_nonneg g)
  calc (p.length : Int) < ((p.length + 1 : Nat) : Int) := by push_cast; omega
    _ ≤ (((Hg g).toNat * (Wg g).toNat : Nat) : Int) := by exact_mod_cast hcard
    _ = Hg g * Wg g := by push_cast; rw [hH, hW]

theorem dist_lt_INF (g : Grid) (hsm : smallGrid g) {u v : Cell}
    (hu : walkable g u) (h : (mazeGraph g).Reachable u v) :
    ((mazeGraph g).dist u v : Int) < INF :=
  lt_trans (dist_lt_gridsize g hu h) hsm

end MazeGame

namespace MazeGame

theorem keyLt_irrefl (a : SNode) : ¬ keyLt a a := by
  unfold keyLt
  omega

theorem keyLt_trans_not {x m n : SNode} (h1 : ¬ keyLt x m) (h2 : keyLt x n) :
    keyLt m n := by
  unfold keyLt at h1 h2 ⊢
  omega

theorem popMin_eq_none_iff (q : List SNode) : popMin q = none ↔ q = [] := by
  cases q with
  | nil => simp [popMin]
  | cons x xs =>
    simp only [popMin]
    cases popMin xs with
    | none => simp
    | some pr =>
      dsimp only
      split <;> simp

theorem keyLt_asymm {a b : SNode} (h1 : keyLt a b) (h2 : keyLt b a) : False := by
  unfold keyLt at h1 h2
  omega

theorem popMin_perm {q : List SNode} {n : SNode} {rest : List SNode}
    (h : popMin q = some (n, rest)) : q.Perm (n :: rest) := by
  induction q generalizing n rest with
  | nil => cases h
  | cons x xs ih =>
    simp only [popMin] at h
    cases hx : popMin xs with
    | none =>
      rw [hx] at h
      dsimp only at h
      obtain ⟨rfl, rfl⟩ : x = n ∧ [] = rest := by
        have := Option.some.inj h
        exact ⟨congrArg Prod.fst this, congrArg Prod.snd this⟩
      rw [(popMin_eq_none_iff xs).mp hx]
    | some pr =>
      rw [hx] at h
      dsimp only at h
      split at h
      · next hkl =>
          obtain ⟨rfl, rfl⟩ : pr.1 = n ∧ x :: pr.2 = rest := by
            have := Option.some.inj h
            exact ⟨congrArg Prod.fst this, congrArg Prod.snd this⟩
          have hperm := ih hx
          exact (hperm.cons x).trans (List.Perm.swap pr.1 x pr.2)
      · next hkl =>
          obtain ⟨rfl, rfl⟩ : x = n ∧ xs = rest := by
            have := Option.some.inj h
            exact ⟨congrArg Prod.fst this, congrArg Prod.snd this⟩
          exact List.Perm.refl _

theorem popMin_min {q : List SNode} {n : SNode} {rest : List SNode}
    (h : popMin q = some (n, rest)) : ∀ x ∈ q, ¬ keyLt x n := by
  induction q generalizing n rest with
  | nil => cases h
  | cons x xs ih =>
    simp only [popMin] at h
    cases hx : popMin xs with
    | none =>
      rw [hx] at h
      dsimp only at h
      obtain ⟨rfl, rfl⟩ : x = n ∧ [] = rest := by
        have := Option.some.inj h
        exact ⟨congrArg Prod.fst this, congrArg Prod.snd this⟩
      intro y hy
      rw [(popMin_eq_none_iff xs).mp hx] at hy
      rw [List.mem_singleton] at hy
      rw [hy]
      exact keyLt_irrefl x
    | some pr =>
      rw [hx] at h
      dsimp only at h
      split at h
      · next hkl =>
          obtain ⟨rfl, rfl⟩ : pr.1 = n ∧ x :: pr.2 = rest := by
            have := Option.some.inj h
            exact ⟨congrArg Prod.fst this, congrArg Prod.snd this⟩
          intro y hy
          rcases List.mem_cons.mp hy with rfl | hy
          · intro hc
            exact keyLt_asymm hkl hc
          · exact ih hx y hy
      · next hkl =>
          obtain ⟨rfl, rfl⟩ : x = n ∧ xs = rest := by
            have := Option.some.inj h
            exact ⟨congrArg Prod.fst this, congrArg Prod.snd this⟩
          intro y hy
          rcases List.mem_cons.mp hy with rfl | hy
          · exact keyLt_irrefl y
          · intro hc
            exact hkl (keyLt_trans_not (ih hx y hy) hc)

end MazeGame

namespace MazeGame

theorem sum_update_eq (s : Finset Cell) (f : Cell → Int) (i : Cell) (b : Int)
    (h : i ∈ s) :
    ∑ x in s, Function.update f i b x = b + ∑ x in s.erase i, f x := by
  rw [← Finset.add_sum_erase s (Function.update f i b) h, Function.update_same]
  congr 1
  apply Finset.sum_congr rfl
  intro x hx
  exact Function.update_noteq (Finset.ne_of_mem_erase hx) b f

theorem adjacent_ne {p q : Cell} (h : adjacent p q) : p ≠ q := by
  unfold adjacent at h
  intro hc
  rw [hc] at h
  omega

theorem relax_guard_iff (g : Grid) (p : Cell) :
    (¬ inb g p ∨ cellv g p = WALLC) ↔ ¬ passable g p := by
  unfold passable
  tauto

theorem relax_skip (g : Grid) (t : Cell) (cur : SNode) (st : AState) (d : Cell)
    (h : ¬ passable g (cur.pos.1 + d.1, cur.pos.2 + d.2)) :
    relax g t cur st d = st := by
  unfold relax
  rw [if_pos ((relax_guard_iff g _).mpr h)]

theorem relax_nofire (g : Grid) (t : Cell) (cur : SNode) (st : AState) (d : Cell)
    (hp : passable g (cur.pos.1 + d.1, cur.pos.2 + d.2))
    (h : ¬ cur.gv + 1 < st.gscore (cur.pos.1 + d.1, cur.pos.2 + d.2)) :
    relax g t cur st d = st := by
  unfold relax
  rw [if_neg (by rw [relax_guard_iff]; exact not_not_intro hp)]
  dsimp only
  rw [if_neg h]

theorem relax_fire (g : Grid) (t : Cell) (cur : SNode) (st : AState) (d : Cell)
    (hp : passable g (cur.pos.1 + d.1, cur.pos.2 + d.2))
    (h : cur.gv + 1 < st.gscore (cur.pos.1 + d.1, cur.pos.2 + d.2)) :
    relax g t cur st d =
      { gscore := Function.update st.gscore (cur.pos.1 + d.1, cur.pos.2 + d.2) (cur.gv + 1)
        came := Function.update st.came (cur.pos.1 + d.1, cur.pos.2 + d.2) cur.pos
        queue := st.queue ++ [⟨(cur.pos.1 + d.1, cur.pos.2 + d.2), cur.gv + 1,
          cur.gv + 1 + hManhattan t (cur.pos.1 + d.1, cur.pos.2 + d.2)⟩] } := by
  unfold relax
  rw [if_neg (by rw [relax_guard_iff]; exact not_not_intro hp)]
  dsimp only
  rw [if_pos h]

end MazeGame

namespace MazeGame

theorem relax_preserves (g : Grid) (s t : Cell) (hbin : binaryGrid g)
    (st : AState) (cur : SNode) (d : Cell) (hd : d ∈ dirs)
    (hcore : ACore g s st)
    (hns : ∀ n ∈ st.queue, n.fv = n.gv + hManhattan t n.pos ∧ 0 ≤ n.gv ∧
      st.gscore n.pos ≤ n.gv ∧ walkable g n.pos ∧
      (mazeGraph g).Reachable s n.pos ∧ ((mazeGraph g).dist s n.pos : Int) ≤ n.gv)
    (hcur : curOK g s st cur) :
    ACore g s (relax g t cur st d) ∧
    (∀ n ∈ (relax g t cur st d).queue, n.fv = n.gv + hManhattan t n.pos ∧ 0 ≤ n.gv ∧
      (relax g t cur st d).gscore n.pos ≤ n.gv ∧ walkable g n.pos ∧
      (mazeGraph g).Reachable s n.pos ∧ ((mazeGraph g).dist s n.pos : Int) ≤ n.gv) ∧
    curOK g s (relax g t cur st d) cur ∧
    (∀ p, (relax g t cur st d).gscore p ≤ st.gscore p) ∧
    (∀ n ∈ st.queue, n ∈ (relax g t cur st d).queue) ∧
    (∀ p, (∃ n ∈ (relax g t cur st d).queue, n.pos = p ∧
        n.gv = (relax g t cur st d).gscore p) ∨
      (relax g t cur st d).gscore p = st.gscore p) ∧
    (walkable g (cur.pos.1 + d.1, cur.pos.2 + d.2) →
      (relax g t cur st d).gscore (cur.pos.1 + d.1, cur.pos.2 + d.2) ≤ cur.gv + 1) ∧
    sumG g (relax g t cur st d) + (relax g t cur st d).queue.length ≤
      sumG g st + st.queue.length := by
  obtain ⟨hg0, hgle, hwc, hrc, hdc⟩ := hcur
  by_cases hp : passable g (cur.pos.1 + d.1, cur.pos.2 + d.2)
  · by_cases hfire : cur.gv + 1 < st.gscore (cur.pos.1 + d.1, cur.pos.2 + d.2)
    · rw [relax_fire g t cur st d hp hfire]
      have hwnb : walkable g (cur.pos.1 + d.1, cur.pos.2 + d.2) :=
        (passable_iff_walkable g hbin _).mp hp
      have hadj : adjacent (cur.pos.1 + d.1, cur.pos.2 + d.2) cur.pos :=
        (adjacent_iff_dirs cur.pos (cur.pos.1 + d.1, cur.pos.2 + d.2)).mpr ⟨d, hd, rfl⟩
      have hnbne : (cur.pos.1 + d.1, cur.pos.2 + d.2) ≠ cur.pos := adjacent_ne hadj
      have hAdj : (mazeGraph g).Adj cur.pos (cur.pos.1 + d.1, cur.pos.2 + d.2) :=
        ⟨adjacent_symm hadj, hwc, hwnb⟩
      have hreach : (mazeGraph g).Reachable s (cur.pos.1 + d.1, cur.pos.2 + d.2) :=
        hrc.trans hAdj.reachable
      have hdistnb : ((mazeGraph g).dist s (cur.pos.1 + d.1, cur.pos.2 + d.2) : Int) ≤
          cur.gv + 1 := by
        have h1 := dist_triangle3 g hrc hAdj.reachable
        rw [SimpleGraph.dist_eq_one_iff_adj.mpr hAdj] at h1
        have h2 : ((mazeGraph g).dist s (cur.pos.1 + d.1, cur.pos.2 + d.2) : Int) ≤
            ((mazeGraph g).dist s cur.pos : Int) + 1 := by exact_mod_cast h1
        omega
      have hnbs : (cur.pos.1 + d.1, cur.pos.2 + d.2) ≠ s := by
        intro hc
        rw [hc, hcore.gs_start] at hfire
        omega
      have hINFnb : cur.gv + 1 < INF :=
        lt_of_lt_of_le hfire (hcore.gs_le _)
      have hple : ∀ p,
          Function.update st.gscore (cur.pos.1 + d.1, cur.pos.2 + d.2) (cur.gv + 1) p ≤
            st.gscore p := by
        intro p
        by_cases hpe : p = (cur.pos.1 + d.1, cur.pos.2 + d.2)
        · rw [hpe, Function.update_same]
          exact le_of_lt hfire
        · rw [Function.update_noteq hpe]
      refine ⟨?_, ?_, ?_, hple, ?_, ?_, ?_, ?_⟩
      · refine ⟨?_, ?_, ?_, ?_, ?_, ?_⟩
        · dsimp only
          rw [Function.update_noteq (Ne.symm hnbs)]
          exact hcore.gs_start
        · intro p
          exact le_trans (hple p) (hcore.gs_le p)
        · intro p
          dsimp only
          by_cases hpe : p = (cur.pos.1 + d.1, cur.pos.2 + d.2)
          · rw [hpe, Function.update_same]
            omega
          · rw [Function.update_noteq hpe]
            exact hcore.gs_nonneg p
        · intro p hlt
          dsimp only at hlt ⊢
          by_cases hpe : p = (cur.pos.1 + d.1, cur.pos.2 + d.2)
          · subst hpe
            rw [Function.update_same]
            exact ⟨hwnb, hreach, hdistnb⟩
          · rw [Function.update_noteq hpe] at hlt ⊢
            exact hcore.gs_dist p hlt
        · intro p
          dsimp only
          by_cases hpe : p = (cur.pos.1 + d.1, cur.pos.2 + d.2)
          · subst hpe
            rw [Function.update_same, Function.update_same]
            constructor
            · intro _
              exact ⟨hnbs, hINFnb⟩
            · intro _
              exact walkable_ne_sentinel g cur.pos hwc
          · rw [Function.update_noteq hpe, Function.update_noteq hpe]
            exact hcore.came_iff p
        · intro p hps hlt
          dsimp only at hlt ⊢
          by_cases hpe : p = (cur.pos.1 + d.1, cur.pos.2 + d.2)
          · subst hpe
            rw [Function.update_same, Function.update_same]
            refine ⟨hadj, hwc, ?_⟩
            rw [Function.update_noteq (fun hc => hnbne hc.symm)]
            omega
          · rw [Function.update_noteq hpe] at hlt
            obtain ⟨ha, hb, hcc⟩ := hcore.came_spec p hps hlt
            rw [Function.update_noteq hpe, Function.update_noteq hpe]
            exact ⟨ha, hb, lt_of_le_of_lt (hple _) hcc⟩
      · intro n hn
        dsimp only at hn ⊢
        rcases List.mem_append.mp hn with hn | hn
        · obtain ⟨h1, h2, h3, h4, h5, h6⟩ := hns n hn
          exact ⟨h1, h2, le_trans (hple _) h3, h4, h5, h6⟩
        · rw [List.mem_singleton] at hn
          subst hn
          refine ⟨rfl, by dsimp only; omega, ?_, hwnb, hreach, hdistnb⟩
          dsimp only
          rw [Function.update_same]
      · refine ⟨hg0, ?_, hwc, hrc, hdc⟩
        dsimp only
        rw [Function.update_noteq (Ne.symm hnbne)]
        exact hgle
      · intro n hn
        dsimp only
        exact List.mem_append_left _ hn
      · intro p
        dsimp only
        by_cases hpe : p = (cur.pos.1 + d.1, cur.pos.2 + d.2)
        · subst hpe
          left
          refine ⟨_, List.mem_append_right _ (List.mem_singleton.mpr rfl), rfl, ?_⟩
          rw [Function.update_same]
        · right
          rw [Function.update_noteq hpe]
      · intro _
        dsimp only
        rw [Function.update_same]
      · dsimp only
        have hmem : (cur.pos.1 + d.1, cur.pos.2 + d.2) ∈ cellFinset g :=
          (mem_cellFinset g _).mpr hp.1
        unfold sumG
        dsimp only
        rw [sum_update_eq _ _ _ _ hmem, List.length_append]
        have hsum := Finset.add_sum_erase (cellFinset g) st.gscore hmem
        simp only [List.length_singleton]
        omega
    · rw [relax_nofire g t cur st d hp hfire]
      push_neg at hfire
      exact ⟨hcore, hns, ⟨hg0, hgle, hwc, hrc, hdc⟩, fun p => le_refl _,
        fun n hn => hn, fun p => Or.inr rfl,
        fun _ => hfire, le_refl _⟩
  · rw [relax_skip g t cur st d hp]
    exact ⟨hcore, hns, ⟨hg0, hgle, hwc, hrc, hdc⟩, fun p => le_refl _,
      fun n hn => hn, fun p => Or.inr rfl,
      fun hw => absurd ((passable_iff_walkable g hbin _).mpr hw) hp, le_refl _⟩

end MazeGame


namespace MazeGame

theorem expand_eq (g : Grid) (t : Cell) (cur : SNode) (st : AState) :
    expand g t cur st =
      relax g t cur (relax g t cur (relax g t cur (relax g t cur st (-1, 0)) (1, 0))
        (0, -1)) (0, 1) := rfl

theorem expand_preserves (g : Grid) (s t : Cell) (hbin : binaryGrid g)
    (st : AState) (cur : SNode)
    (hcore : ACore g s st)
    (hns : ∀ n ∈ st.queue, n.fv = n.gv + hManhattan t n.pos ∧ 0 ≤ n.gv ∧
      st.gscore n.pos ≤ n.gv ∧ walkable g n.pos ∧
      (mazeGraph g).Reachable s n.pos ∧ ((mazeGraph g).dist s n.pos : Int) ≤ n.gv)
    (hcur : curOK g s st cur) :
    ACore g s (expand g t cur st) ∧
    (∀ n ∈ (expand g t cur st).queue, n.fv = n.gv + hManhattan t n.pos ∧ 0 ≤ n.gv ∧
      (expand g t cur st).gscore n.pos ≤ n.gv ∧ walkable g n.pos ∧
      (mazeGraph g).Reachable s n.pos ∧ ((mazeGraph g).dist s n.pos : Int) ≤ n.gv) ∧
    (∀ p, (expand g t cur st).gscore p ≤ st.gscore p) ∧
    (∀ n ∈ st.queue, n ∈ (expand g t cur st).queue) ∧
    (∀ p, (∃ n ∈ (expand g t cur st).queue, n.pos = p ∧
        n.gv = (expand g t cur st).gscore p) ∨
      (expand g t cur st).gscore p = st.gscore p) ∧
    (∀ q, adjacent q cur.pos → walkable g q →
      (expand g t cur st).gscore q ≤ cur.gv + 1) ∧
    sumG g (expand g t cur st) + (expand g t cur st).queue.length ≤
      sumG g st + st.queue.length := by
  have hd1 : ((-1 : Int), (0 : Int)) ∈ dirs := by simp [dirs]
  have hd2 : ((1 : Int), (0 : Int)) ∈ dirs := by simp [dirs]
  have hd3 : ((0 : Int), (-1 : Int)) ∈ dirs := by simp [dirs]
  have hd4 : ((0 : Int), (1 : Int)) ∈ dirs := by simp [dirs]
  obtain ⟨c1, q1, k1, le1, m1, w1, nb1, s1⟩ :=
    relax_preserves g s t hbin st cur (-1, 0) hd1 hcore hns hcur
  obtain ⟨c2, q2, k2, le2, m2, w2, nb2, s2⟩ :=
    relax_preserves g s t hbin _ cur (1, 0) hd2 c1 q1 k1
  obtain ⟨c3, q3, k3, le3, m3, w3, nb3, s3⟩ :=
    relax_preserves g s t hbin _ cur (0, -1) hd3 c2 q2 k2
  obtain ⟨c4, q4, k4, le4, m4, w4, nb4, s4⟩ :=
    relax_preserves g s t hbin _ cur (0, 1) hd4 c3 q3 k3
  rw [expand_eq]
  refine ⟨c4, q4, ?_, ?_, ?_, ?_, ?_⟩
  · intro p
    exact le_trans (le4 p) (le_trans (le3 p) (le_trans (le2 p) (le1 p)))
  · intro n hn
    exact m4 _ (m3 _ (m2 _ (m1 _ hn)))
  · intro p
    rcases w4 p with hw | hu4
    · exact Or.inl hw
    · rcases w3 p with ⟨n, hn, hp, hg⟩ | hu3
      · exact Or.inl ⟨n, m4 _ hn, hp, by rw [hu4, hg]⟩
      · rcases w2 p with ⟨n, hn, hp, hg⟩ | hu2
        · exact Or.inl ⟨n, m4 _ (m3 _ hn), hp, by rw [hu4, hu3, hg]⟩
        · rcases w1 p with ⟨n, hn, hp, hg⟩ | hu1
          · exact Or.inl ⟨n, m4 _ (m3 _ (m2 _ hn)), hp, by rw [hu4, hu3, hu2, hg]⟩
          · exact Or.inr (by rw [hu4, hu3, hu2, hu1])
  · intro q hadjq hwq
    obtain ⟨d, hd, rfl⟩ := (adjacent_iff_dirs cur.pos q).mp hadjq
    simp only [dirs, List.mem_cons, List.mem_singleton, List.not_mem_nil, or_false] at hd
    rcases hd with rfl | rfl | rfl | rfl
    · exact le_trans (le4 _) (le_trans (le3 _) (le_trans (le2 _) (nb1 hwq)))
    · exact le_trans (le4 _) (le_trans (le3 _) (nb2 hwq))
    · exact le_trans (le4 _) (nb3 hwq)
    · exact nb4 hwq
  · calc sumG g (relax g t cur (relax g t cur (relax g t cur (relax g t cur st (-1, 0)) (1, 0)) (0, -1)) (0, 1)) +
        (relax g t cur (relax g t cur (relax g t cur (relax g t cur st (-1, 0)) (1, 0)) (0, -1)) (0, 1)).queue.length ≤
        sumG g (relax g t cur (relax g t cur (relax g t cur st (-1, 0)) (1, 0)) (0, -1)) +
        (relax g t cur (relax g t cur (relax g t cur st (-1, 0)) (1, 0)) (0, -1)).queue.length := s4
      _ ≤ sumG g (relax g t cur (relax g t cur st (-1, 0)) (1, 0)) +
          (relax g t cur (relax g t cur st (-1, 0)) (1, 0)).queue.length := s3
      _ ≤ sumG g (relax g t cur st (-1, 0)) + (relax g t cur st (-1, 0)).queue.length := s2
      _ ≤ sumG g st + st.queue.length := s1

end MazeGame

namespace MazeGame

theorem sumG_nonneg (g : Grid) (st : AState) (h : ∀ p, 0 ≤ st.gscore p) :
    0 ≤ sumG g st :=
  Finset.sum_nonneg fun i _ => h i

theorem ACore_queue_irrel (g : Grid) (s : Cell) (st : AState) (q : List SNode)
    (h : ACore g s st) : ACore g s { st with queue := q } :=
  ⟨h.gs_start, h.gs_le, h.gs_nonneg, h.gs_dist, h.came_iff, h.came_spec⟩

theorem stepA_preserves (g : Grid) (s t : Cell) (hbin : binaryGrid g)
    (st : AState) (cur : SNode) (rest : List SNode)
    (hpop : popMin st.queue = some (cur, rest))
    (hcore : ACore g s st) (hq : AQueue g s t st) :
    ACore g s (expand g t cur { st with queue := rest }) ∧
    AQueue g s t (expand g t cur { st with queue := rest }) ∧
    measureA g (expand g t cur { st with queue := rest }) < measureA g st := by
  have hperm := popMin_perm hpop
  have hcurmem : cur ∈ st.queue := hperm.mem_iff.mpr (List.mem_cons_self cur rest)
  obtain ⟨hfv, hgv0, hgle, hwk, hrk, hdk⟩ := hq.node_spec cur hcurmem
  have hcore1 : ACore g s ({ st with queue := rest }) := ACore_queue_irrel g s st rest hcore
  have hns1 : ∀ n ∈ ({ st with queue := rest } : AState).queue,
      n.fv = n.gv + hManhattan t n.pos ∧ 0 ≤ n.gv ∧
      ({ st with queue := rest } : AState).gscore n.pos ≤ n.gv ∧ walkable g n.pos ∧
      (mazeGraph g).Reachable s n.pos ∧ ((mazeGraph g).dist s n.pos : Int) ≤ n.gv := by
    intro n hn
    exact hq.node_spec n (hperm.mem_iff.mpr (List.mem_cons_of_mem cur hn))
  have hcur1 : curOK g s ({ st with queue := rest }) cur := ⟨hgv0, hgle, hwk, hrk, hdk⟩
  obtain ⟨c2, q2, le2, m2, w2, nbr2, s2⟩ :=
    expand_preserves g s t hbin ({ st with queue := rest }) cur hcore1 hns1 hcur1
  refine ⟨c2, ⟨q2, ?_⟩, ?_⟩
  · intro p hplt
    rcases w2 p with hw | hunch
    · exact Or.inl hw
    · have hunch' : (expand g t cur { st with queue := rest }).gscore p = st.gscore p := hunch
      have hplt' : st.gscore p < INF := by rw [← hunch']; exact hplt
      rcases hq.cover p hplt' with ⟨n, hn, hnp, hng⟩ | hrel
      · rcases List.mem_cons.mp (hperm.mem_iff.mp hn) with rfl | hn'
        · right
          intro q hadj hwq
          rw [hunch']
          have := nbr2 q (by rwa [hnp]) hwq
          omega
        · left
          exact ⟨n, m2 n hn', hnp, by rw [hng, hunch']⟩
      · right
        intro q hadj hwq
        rw [hunch']
        exact le_trans (le2 q) (hrel q hadj hwq)
  · have hlen : st.queue.length = rest.length + 1 := by
      rw [hperm.length_eq]
      rfl
    have h1 : sumG g (expand g t cur { st with queue := rest }) +
        (expand g t cur { st with queue := rest }).queue.length ≤
        sumG g st + rest.length := s2
    have hnn2 : 0 ≤ sumG g (expand g t cur { st with queue := rest }) :=
      sumG_nonneg g _ c2.gs_nonneg
    have hnn : 0 ≤ sumG g st := sumG_nonneg g st hcore.gs_nonneg
    unfold measureA
    omega

end MazeGame

namespace MazeGame

theorem reach_witness (g : Grid) (s t : Cell) (hsw : walkable g s)
    (hsm : smallGrid g) (st : AState)
    (hcore : ACore g s st) (hq : AQueue g s t st) (x : Cell)
    (hx : (mazeGraph g).Reachable s x) :
    ∀ (k : Nat) (y : Cell),
      (mazeGraph g).Reachable s y →
      (mazeGraph g).dist s y + (mazeGraph g).dist y x = (mazeGraph g).dist s x →
      (mazeGraph g).dist y x = k →
      st.gscore y = ((mazeGraph g).dist s y : Int) →
      ((∃ (y' : Cell) (n : SNode), n ∈ st.queue ∧ n.pos = y' ∧
          (mazeGraph g).Reachable s y' ∧
          n.gv = ((mazeGraph g).dist s y' : Int) ∧
          (mazeGraph g).dist s y' + (mazeGraph g).dist y' x = (mazeGraph g).dist s x) ∨
        (st.gscore x = ((mazeGraph g).dist s x : Int) ∧
          ∀ q, adjacent q x → walkable g q → st.gscore q ≤ st.gscore x + 1)) := by
  intro k
  induction k with
  | zero =>
    intro y hry hpath hdyx hgy
    have hryx : (mazeGraph g).Reachable y x := hry.symm.trans hx
    have hyx : y = x := (hryx.dist_eq_zero_iff).mp hdyx
    subst hyx
    have hxINF : st.gscore y < INF := by
      rw [hgy]
      exact dist_lt_INF g hsm hsw hry
    rcases hq.cover y hxINF with ⟨n, hn, hnp, hng⟩ | hrel
    · left
      refine ⟨y, n, hn, hnp, hry, by rw [hng, hgy], ?_⟩
      rw [SimpleGraph.dist_self]
      omega
    · right
      exact ⟨hgy, hrel⟩
  | succ k ih =>
    intro y hry hpath hdyx hgy
    have hryx : (mazeGraph g).Reachable y x := hry.symm.trans hx
    have hyne : y ≠ x := by
      intro hc
      rw [hc, SimpleGraph.dist_self] at hdyx
      exact Nat.succ_ne_zero k hdyx.symm
    have hyINF : st.gscore y < INF := by
      rw [hgy]
      exact dist_lt_INF g hsm hsw hry
    rcases hq.cover y hyINF with ⟨n, hn, hnp, hng⟩ | hrel
    · left
      exact ⟨y, n, hn, hnp, hry, by rw [hng, hgy], hpath⟩
    · obtain ⟨z, hAdj, hrzx, hdzx⟩ := dist_succ_exists g hryx hyne
      have hrz : (mazeGraph g).Reachable s z := hry.trans hAdj.reachable
      have hd1 : (mazeGraph g).dist s z ≤ (mazeGraph g).dist s y + 1 := by
        have := dist_triangle3 g hry hAdj.reachable
        rwa [SimpleGraph.dist_eq_one_iff_adj.mpr hAdj] at this
      have hd2 : (mazeGraph g).dist s x ≤
          (mazeGraph g).dist s z + (mazeGraph g).dist z x :=
        dist_triangle3 g hrz hrzx
      have hdz : (mazeGraph g).dist s z = (mazeGraph g).dist s y + 1 := by omega
      have hpz : (mazeGraph g).dist s z + (mazeGraph g).dist z x =
          (mazeGraph g).dist s x := by omega
      have hgz1 : st.gscore z ≤ ((mazeGraph g).dist s z : Int) := by
        have := hrel z (adjacent_symm hAdj.1) hAdj.2.2
        rw [hgy] at this
        rw [hdz]
        push_cast
        omega
      have hzINF : st.gscore z < INF :=
        lt_of_le_of_lt hgz1 (dist_lt_INF g hsm hsw hrz)
      have hgz : st.gscore z = ((mazeGraph g).dist s z : Int) :=
        le_antisymm hgz1 (hcore.gs_dist z hzINF).2.2
      exact ih z hrz hpz (by omega) hgz

end MazeGame

namespace MazeGame

theorem searchLoop_core (g : Grid) (s t : Cell) (hbin : binaryGrid g) :
    ∀ (fuel : Nat) (st : AState), ACore g s st → AQueue g s t st →
      ACore g s (searchLoop g t fuel st) := by
  intro fuel
  induction fuel with
  | zero => intro st hcore _; exact hcore
  | succ fuel ih =>
    intro st hcore hq
    show ACore g s (searchLoop g t (fuel + 1) st)
    unfold searchLoop
    cases hp : popMin st.queue with
    | none => exact hcore
    | some pr =>
      dsimp only
      by_cases hct : pr.1.pos = t
      · rw [if_pos hct]
        exact ACore_queue_irrel g s st pr.2 hcore
      · rw [if_neg hct]
        obtain ⟨c2, q2, _⟩ := stepA_preserves g s t hbin st pr.1 pr.2 (by rw [hp]) hcore hq
        exact ih _ c2 q2

theorem searchLoop_goal (g : Grid) (s t : Cell) (hbin : binaryGrid g)
    (hsw : walkable g s) (hsm : smallGrid g) :
    ∀ (fuel : Nat) (st : AState), ACore g s st → AQueue g s t st →
      measureA g st < fuel →
      ((mazeGraph g).Reachable s t →
        (searchLoop g t fuel st).gscore t = ((mazeGraph g).dist s t : Int)) := by
  intro fuel
  induction fuel with
  | zero => intro st _ _ hm; omega
  | succ fuel ih =>
    intro st hcore hq hm hrt
    have hstart : st.gscore s = ((mazeGraph g).dist s s : Int) := by
      rw [SimpleGraph.dist_self, hcore.gs_start]
      rfl
    show (searchLoop g t (fuel + 1) st).gscore t = ((mazeGraph g).dist s t : Int)
    unfold searchLoop
    cases hp : popMin st.queue with
    | none =>
      have hempty : st.queue = [] := (popMin_eq_none_iff _).mp hp
      rcases reach_witness g s t hsw hsm st hcore hq t hrt
        ((mazeGraph g).dist s t) s (SimpleGraph.Reachable.refl s)
        (by rw [SimpleGraph.dist_self]; omega) rfl hstart with
        ⟨y', n, hn, _⟩ | ⟨hset, _⟩
      · rw [hempty] at hn
        cases hn
      · exact hset
    | some pr =>
      dsimp only
      by_cases hct : pr.1.pos = t
      · rw [if_pos hct]
        show st.gscore t = ((mazeGraph g).dist s t : Int)
        rcases reach_witness g s t hsw hsm st hcore hq t hrt
          ((mazeGraph g).dist s t) s (SimpleGraph.Reachable.refl s)
          (by rw [SimpleGraph.dist_self]; omega) rfl hstart with
          ⟨y', n, hn, hnp, hry', hng, hpath⟩ | ⟨hset, _⟩
        · have hperm := popMin_perm hp
          have hcurmem : pr.1 ∈ st.queue :=
            hperm.mem_iff.mpr (List.mem_cons_self pr.1 pr.2)
          obtain ⟨hcfv, hcgv0, hcgle, _, _, _⟩ := hq.node_spec pr.1 hcurmem
          obtain ⟨hnfv, hngv0, hngle, _, hnreach, _⟩ := hq.node_spec n hn
          have hmin := popMin_min hp n hn
          have hcfv' : pr.1.fv = pr.1.gv := by
            rw [hcfv, hct, hM_self]
            omega
          have hnfv' : n.fv = ((mazeGraph g).dist s y' : Int) + hManhattan t y' := by
            rw [hnfv, hnp, hng]
          have hh : hManhattan t y' ≤ ((mazeGraph g).dist y' t : Int) :=
            hM_le_dist g (hry'.symm.trans hrt)
          have hfvle : n.fv ≤ ((mazeGraph g).dist s t : Int) := by
            rw [hnfv']
            have : ((mazeGraph g).dist s y' : Int) + ((mazeGraph g).dist y' t : Int) =
                ((mazeGraph g).dist s t : Int) := by exact_mod_cast hpath
            omega
          have hcle : pr.1.fv ≤ n.fv := by
            unfold keyLt at hmin
            omega
          have hgt : st.gscore pr.1.pos ≤ pr.1.gv := hcgle
          rw [hct] at hgt
          have hgtub : st.gscore t ≤ ((mazeGraph g).dist s t : Int) := by omega
          have hINFt : st.gscore t < INF :=
            lt_of_le_of_lt hgtub (dist_lt_INF g hsm hsw hrt)
          have hlb := (hcore.gs_dist t hINFt).2.2
          omega
        · exact hset
      · rw [if_neg hct]
        obtain ⟨c2, q2, hm2⟩ := stepA_preserves g s t hbin st pr.1 pr.2 (by rw [hp]) hcore hq
        exact ih _ c2 q2 (by omega) hrt

end MazeGame

namespace MazeGame

theorem init_ACore (g : Grid) (s t : Cell) (hsw : walkable g s) :
    ACore g s (initAState g s t) := by
  constructor
  · simp [initAState]
  · intro p
    unfold initAState
    dsimp only
    by_cases hp : p = s
    · subst hp
      rw [Function.update_same]
      norm_num [INF]
    · rw [Function.update_noteq hp]
  · intro p
    unfold initAState
    dsimp only
    by_cases hp : p = s
    · subst hp
      rw [Function.update_same]
    · rw [Function.update_noteq hp]
      norm_num [INF]
  · intro p hplt
    unfold initAState at hplt ⊢
    dsimp only at hplt ⊢
    by_cases hp : p = s
    · subst hp
      refine ⟨hsw, SimpleGraph.Reachable.refl p, ?_⟩
      rw [Function.update_same, SimpleGraph.dist_self]
      norm_num
    · rw [Function.update_noteq hp] at hplt
      exact absurd hplt (lt_irrefl _)
  · intro p
    unfold initAState
    dsimp only
    constructor
    · intro hc
      exact absurd rfl hc
    · rintro ⟨hps, hlt⟩
      rw [Function.update_noteq hps] at hlt
      exact absurd hlt (lt_irrefl _)
  · intro p hps hlt
    unfold initAState at hlt
    dsimp only at hlt
    rw [Function.update_noteq hps] at hlt
    exact absurd hlt (lt_irrefl _)

theorem init_AQueue (g : Grid) (s t : Cell) (hsw : walkable g s) :
    AQueue g s t (initAState g s t) := by
  constructor
  · intro n hn
    unfold initAState at hn
    dsimp only at hn
    rw [List.mem_singleton] at hn
    subst hn
    refine ⟨(zero_add _).symm, le_refl 0, ?_, hsw, SimpleGraph.Reachable.refl s, ?_⟩
    · unfold initAState
      dsimp only
      rw [Function.update_same]
    · rw [SimpleGraph.dist_self]
      norm_num
  · intro p hlt
    by_cases hp : p = s
    · subst hp
      left
      refine ⟨⟨p, 0, hManhattan t p⟩, ?_, rfl, ?_⟩
      · unfold initAState
        dsimp only
        exact List.mem_singleton.mpr rfl
      · unfold initAState
        dsimp only
        rw [Function.update_same]
    · exfalso
      unfold initAState at hlt
      dsimp only at hlt
      rw [Function.update_noteq hp] at hlt
      exact absurd hlt (lt_irrefl _)

theorem init_measure (g : Grid) (s t : Cell) :
    measureA g (initAState g s t) < astarFuelFor g := by
  unfold measureA astarFuelFor
  have hq : (initAState g s t).queue.length = 1 := rfl
  rw [hq]
  have h1 : ∀ p ∈ cellFinset g, (initAState g s t).gscore p ≤ INF := by
    intro p _
    unfold initAState
    dsimp only
    by_cases hp : p = s
    · subst hp
      rw [Function.update_same]
      norm_num [INF]
    · rw [Function.update_noteq hp]
  have hsum : sumG g (initAState g s t) ≤
      (((Hg g).toNat * (Wg g).toNat * 2 ^ 29 : Nat) : Int) := by
    have := Finset.sum_le_card_nsmul (cellFinset g) ((initAState g s t).gscore) INF h1
    rw [card_cellFinset] at this
    unfold sumG
    calc ∑ p in cellFinset g, (initAState g s t).gscore p ≤
        ((Hg g).toNat * (Wg g).toNat) • INF := this
      _ = (((Hg g).toNat * (Wg g).toNat * 2 ^ 29 : Nat) : Int) := by
        rw [nsmul_eq_mul]
        unfold INF
        push_cast
        ring
  have htn : (sumG g (initAState g s t)).toNat ≤ (Hg g).toNat * (Wg g).toNat * 2 ^ 29 :=
    Int.toNat_le.mpr hsum
  omega


theorem backtrack_adj (g : Grid) (s : Cell) (st : AState) (hcore : ACore g s st) :
    ∀ (fuel : Nat) (cur : Cell) (acc : List Cell), cur ≠ s → st.gscore cur < INF →
      (st.gscore cur).toNat < fuel →
      ∃ (res : List Cell) (l : Cell),
        backtrackLoop st.came s fuel cur acc = acc ++ res ∧
        res.getLast? = some l ∧ adjacent l s ∧ walkable g l := by
  intro fuel
  induction fuel with
  | zero => intro cur acc hne hlt hf; omega
  | succ fuel ih =>
    intro cur acc hne hlt hf
    have hcw : walkable g cur := (hcore.gs_dist cur hlt).1
    obtain ⟨hadj, hwpa, hglt⟩ := hcore.came_spec cur hne hlt
    have hpane : st.came cur ≠ ((-1 : Int), (-1 : Int)) :=
      (hcore.came_iff cur).mpr ⟨hne, hlt⟩
    have hpann := hcore.gs_nonneg (st.came cur)
    show (∃ res l, backtrackLoop st.came s (fuel + 1) cur acc = acc ++ res ∧
      res.getLast? = some l ∧ adjacent l s ∧ walkable g l)
    unfold backtrackLoop
    rw [if_neg hne]
    dsimp only
    rw [if_neg hpane]
    by_cases hpas : st.came cur = s
    · have hf1 : 1 ≤ fuel := by omega
      obtain ⟨fuel2, rfl⟩ : ∃ k, fuel = k + 1 := ⟨fuel - 1, by omega⟩
      refine ⟨[cur], cur, ?_, rfl, ?_, hcw⟩
      · unfold backtrackLoop
        rw [if_pos hpas]
      · rw [hpas] at hadj
        exact hadj
    · have hpalt : st.gscore (st.came cur) < INF := lt_trans hglt hlt
      have hfpa : (st.gscore (st.came cur)).toNat < fuel := by omega
      obtain ⟨res, l, heq, hlast, hladj, hlw⟩ :=
        ih (st.came cur) (acc ++ [cur]) hpas hpalt hfpa
      refine ⟨cur :: res, l, ?_, ?_, hladj, hlw⟩
      · rw [heq, List.append_assoc, List.singleton_append]
      · cases res with
        | nil => simp at hlast
        | cons r rs => rw [List.getLast?_cons_cons]; exact hlast

theorem backtrack_opt (g : Grid) (s : Cell) (st : AState) (hcore : ACore g s st)
    (hsw : walkable g s) :
    ∀ (fuel : Nat) (cur : Cell) (acc : List Cell), cur ≠ s → st.gscore cur < INF →
      (st.gscore cur).toNat < fuel →
      st.gscore cur = ((mazeGraph g).dist s cur : Int) →
      ∃ (res : List Cell) (l : Cell),
        backtrackLoop st.came s fuel cur acc = acc ++ res ∧
        res.getLast? = some l ∧ (mazeGraph g).Adj s l ∧
        (mazeGraph g).dist l cur + 1 = (mazeGraph g).dist s cur := by
  intro fuel
  induction fuel with
  | zero => intro cur acc hne hlt hf; omega
  | succ fuel ih =>
    intro cur acc hne hlt hf hex
    have hcw : walkable g cur := (hcore.gs_dist cur hlt).1
    obtain ⟨hadj, hwpa, hglt⟩ := hcore.came_spec cur hne hlt
    have hpane : st.came cur ≠ ((-1 : Int), (-1 : Int)) :=
      (hcore.came_iff cur).mpr ⟨hne, hlt⟩
    have hpann := hcore.gs_nonneg (st.came cur)
    show (∃ res l, backtrackLoop st.came s (fuel + 1) cur acc = acc ++ res ∧
      res.getLast? = some l ∧ (mazeGraph g).Adj s l ∧
      (mazeGraph g).dist l cur + 1 = (mazeGraph g).dist s cur)
    unfold backtrackLoop
    rw [if_neg hne]
    dsimp only
    rw [if_neg hpane]
    by_cases hpas : st.came cur = s
    · have hf1 : 1 ≤ fuel := by omega
      obtain ⟨fuel2, rfl⟩ : ∃ k, fuel = k + 1 := ⟨fuel - 1, by omega⟩
      have hadjs : (mazeGraph g).Adj s cur := by
        rw [hpas] at hadj
        exact (mazeAdj_iff g s cur).mpr ⟨adjacent_symm hadj, hsw, hcw⟩
      refine ⟨[cur], cur, ?_, rfl, hadjs, ?_⟩
      · unfold backtrackLoop
        rw [if_pos hpas]
      · rw [SimpleGraph.dist_self, SimpleGraph.dist_eq_one_iff_adj.mpr hadjs]
    · have hpalt : st.gscore (st.came cur) < INF := lt_trans hglt hlt
      have hfpa : (st.gscore (st.came cur)).toNat < fuel := by omega
      have hrpa : (mazeGraph g).Reachable s (st.came cur) :=
        (hcore.gs_dist (st.came cur) hpalt).2.1
      have hadjpc : (mazeGraph g).Adj (st.came cur) cur :=
        (mazeAdj_iff g (st.came cur) cur).mpr ⟨adjacent_symm hadj, hwpa, hcw⟩
      have hd1 : (mazeGraph g).dist s cur ≤ (mazeGraph g).dist s (st.came cur) + 1 := by
        have := dist_triangle3 g hrpa hadjpc.reachable
        rwa [SimpleGraph.dist_eq_one_iff_adj.mpr hadjpc] at this
      have hd2 : ((mazeGraph g).dist s (st.came cur) : Int) ≤ st.gscore (st.came cur) :=
        (hcore.gs_dist (st.came cur) hpalt).2.2
      have hpex : st.gscore (st.came cur) = ((mazeGraph g).dist s (st.came cur) : Int) ∧
          (mazeGraph g).dist s (st.came cur) + 1 = (mazeGraph g).dist s cur := by
        rw [hex] at hglt
        constructor
        · omega
        · omega
      obtain ⟨res, l, heq, hlast, hladj, hldist⟩ :=
        ih (st.came cur) (acc ++ [cur]) hpas hpalt hfpa hpex.1
      have hrl : (mazeGraph g).Reachable l (st.came cur) := by
        exact (hladj.reachable.symm).trans hrpa
      have hup : (mazeGraph g).dist l cur ≤ (mazeGraph g).dist l (st.came cur) + 1 := by
        have := dist_triangle3 g hrl hadjpc.reachable
        rwa [SimpleGraph.dist_eq_one_iff_adj.mpr hadjpc] at this
      have hlo : (mazeGraph g).dist s cur ≤ 1 + (mazeGraph g).dist l cur := by
        have := dist_triangle3 g hladj.reachable (hrl.trans hadjpc.reachable)
        rwa [SimpleGraph.dist_eq_one_iff_adj.mpr hladj] at this
      refine ⟨cur :: res, l, ?_, ?_, hladj, ?_⟩
      · rw [heq, List.append_assoc, List.singleton_append]
      · cases res with
        | nil => simp at hlast
        | cons r rs => rw [List.getLast?_cons_cons]; exact hlast
      · omega


theorem scanFold_spec (t : Cell) (gs : Cell → Int) :
    ∀ (l : List Cell) (acc : Cell × Int),
      ∀ r, r = l.foldl (fun a p =>
          if gs p < INF ∧ gs p + hManhattan t p < a.2 then (p, gs p + hManhattan t p)
          else a) acc →
        (r = acc ∨ (gs r.1 < INF ∧ r.2 = gs r.1 + hManhattan t r.1)) ∧
        (∀ p ∈ l, gs p < INF → r.2 ≤ gs p + hManhattan t p) ∧ r.2 ≤ acc.2 := by
  intro l
  induction l with
  | nil =>
    intro acc r hr
    rw [List.foldl_nil] at hr
    subst hr
    refine ⟨Or.inl rfl, ?_, le_refl _⟩
    intro p hp
    cases hp
  | cons x l ih =>
    intro acc r hr
    rw [List.foldl_cons] at hr
    by_cases hx : gs x < INF ∧ gs x + hManhattan t x < acc.2
    · rw [if_pos hx] at hr
      obtain ⟨h1, h2, h3⟩ := ih (x, gs x + hManhattan t x) r hr
      refine ⟨?_, ?_, ?_⟩
      · rcases h1 with heq | hgood
        · right
          rw [heq]
          exact ⟨hx.1, rfl⟩
        · right; exact hgood
      · intro p hp hplt
        rcases List.mem_cons.mp hp with rfl | hp2
        · exact le_trans h3 (le_refl _)
        · exact h2 p hp2 hplt
      · exact le_trans h3 (le_of_lt hx.2)
    · rw [if_neg hx] at hr
      obtain ⟨h1, h2, h3⟩ := ih acc r hr
      refine ⟨h1, ?_, h3⟩
      intro p hp hplt
      rcases List.mem_cons.mp hp with rfl | hp2
      · have hge : acc.2 ≤ gs p + hManhattan t p := by
          by_contra hcon
          exact hx ⟨hplt, by omega⟩
        exact le_trans h3 hge
      · exact h2 p hp2 hplt

theorem surrogateScan_spec (g : Grid) (t : Cell) (gs : Cell → Int) (s : Cell) :
    surrogateScan g t gs s = s ∨
    (gs (surrogateScan g t gs s) < INF ∧
     ∀ p ∈ cellsRM g, gs p < INF →
       gs (surrogateScan g t gs s) + hManhattan t (surrogateScan g t gs s) ≤
         gs p + hManhattan t p) := by
  obtain ⟨h1, h2, _⟩ := scanFold_spec t gs (cellsRM g) (s, BIG) _ rfl
  unfold surrogateScan
  rcases h1 with heq | ⟨hlt, hf⟩
  · left
    rw [heq]
  · right
    refine ⟨hlt, fun p hp hplt => ?_⟩
    rw [← hf]
    exact h2 p hp hplt


theorem INF_lit : INF = (536870912 : Int) := by norm_num [INF]

theorem BFUEL_lit : BFUEL = 1073741824 := by norm_num [BFUEL]

theorem searchLoop_final (g : Grid) (s t : Cell) (hbin : binaryGrid g)
    (hsw : walkable g s) (hsm : smallGrid g) :
    ACore g s (searchLoop g t (astarFuelFor g) (initAState g s t)) ∧
    ((mazeGraph g).Reachable s t →
      (searchLoop g t (astarFuelFor g) (initAState g s t)).gscore t =
        ((mazeGraph g).dist s t : Int)) :=
  ⟨searchLoop_core g s t hbin (astarFuelFor g) (initAState g s t)
      (init_ACore g s t hsw) (init_AQueue g s t hsw),
   searchLoop_goal g s t hbin hsw hsm (astarFuelFor g) (initAState g s t)
      (init_ACore g s t hsw) (init_AQueue g s t hsw) (init_measure g s t)⟩

theorem astar_result_ok (g : Grid) (s t : Cell) (hbin : binaryGrid g)
    (hsw : walkable g s) :
    astar_next_step g s t = s ∨
    (adjacent (astar_next_step g s t) s ∧ walkable g (astar_next_step g s t)) := by
  unfold astar_next_step
  by_cases hst : s = t
  · rw [if_pos hst]
    left
    rfl
  · rw [if_neg hst]
    dsimp only
    have hcore : ACore g s (searchLoop g t (astarFuelFor g) (initAState g s t)) :=
      searchLoop_core g s t hbin (astarFuelFor g) (initAState g s t)
        (init_ACore g s t hsw) (init_AQueue g s t hsw)
    set stf := searchLoop g t (astarFuelFor g) (initAState g s t) with hstf
    by_cases hct : stf.came t = ((-1 : Int), (-1 : Int))
    · rw [if_pos hct]
      by_cases hbs : surrogateScan g t stf.gscore s = s
      · rw [if_pos hbs]
        left
        rfl
      · rw [if_neg hbs]
        rcases surrogateScan_spec g t stf.gscore s with h | ⟨hblt, _⟩
        · exact absurd h hbs
        · have hfb : (stf.gscore (surrogateScan g t stf.gscore s)).toNat < BFUEL := by
            have hnn := hcore.gs_nonneg (surrogateScan g t stf.gscore s)
            rw [INF_lit] at hblt
            rw [BFUEL_lit]
            omega
          obtain ⟨res, l, heq, hlast, hladj, hlw⟩ :=
            backtrack_adj g s stf hcore BFUEL (surrogateScan g t stf.gscore s) []
              hbs hblt hfb
          rw [List.nil_append] at heq
          rw [heq, hlast]
          right
          exact ⟨hladj, hlw⟩
    · rw [if_neg hct]
      obtain ⟨htns, htlt⟩ := (hcore.came_iff t).mp hct
      have hft : (stf.gscore t).toNat < BFUEL := by
        have hnn := hcore.gs_nonneg t
        rw [INF_lit] at htlt
        rw [BFUEL_lit]
        omega
      obtain ⟨res, l, heq, hlast, hladj, hlw⟩ :=
        backtrack_adj g s stf hcore BFUEL t [] htns htlt hft
      rw [List.nil_append] at heq
      rw [heq, hlast]
      right
      exact ⟨hladj, hlw⟩


theorem astar_step_opt (g : Grid) (s t : Cell) (hbin : binaryGrid g)
    (hsw : walkable g s) (hsm : smallGrid g)
    (hreach : (mazeGraph g).Reachable s t) (hne : s ≠ t) :
    (mazeGraph g).Adj s (astar_next_step g s t) ∧
    (mazeGraph g).dist (astar_next_step g s t) t + 1 = (mazeGraph g).dist s t := by
  unfold astar_next_step
  rw [if_neg hne]
  dsimp only
  obtain ⟨hcore, hgoal⟩ := searchLoop_final g s t hbin hsw hsm
  set stf := searchLoop g t (astarFuelFor g) (initAState g s t) with hstf
  have hgt : stf.gscore t = ((mazeGraph g).dist s t : Int) := hgoal hreach
  have hwt : walkable g t := by
    obtain ⟨p, hp⟩ := hreach.exists_walk_length_eq_dist
    exact walk_support_walkable g hsw p t (SimpleGraph.Walk.end_mem_support p)
  have htlt : stf.gscore t < INF := by
    rw [hgt]
    exact dist_lt_INF g hsm hsw hreach
  have hct : stf.came t ≠ ((-1 : Int), (-1 : Int)) :=
    (hcore.came_iff t).mpr ⟨Ne.symm hne, htlt⟩
  rw [if_neg hct]
  have hft : (stf.gscore t).toNat < BFUEL := by
    have hnn := hcore.gs_nonneg t
    rw [INF_lit] at htlt
    rw [BFUEL_lit]
    omega
  obtain ⟨res, l, heq, hlast, hladj, hldist⟩ :=
    backtrack_opt g s stf hcore hsw BFUEL t [] (Ne.symm hne) htlt hft hgt
  rw [List.nil_append] at heq
  rw [heq, hlast]
  exact ⟨hladj, hldist⟩


/-- C10: on Road/Wall grids, `astar_next_step` called from a walkable
start cell returns either the start itself or a cell that is in
bounds, is a Road cell, and is 4-adjacent to the start — never a wall
or out-of-range cell; hence the monster scheduler, which starts a move
on any returned cell different from the current one without
re-checking walkability, never moves the adversary into a wall. -/
theorem C10_next_step_safe (g : Grid) (s t : Cell) (hbin : binaryGrid g)
    (hsw : walkable g s) :
    astar_next_step g s t = s ∨
    (inb g (astar_next_step g s t) ∧ cellv g (astar_next_step g s t) = ROADC ∧
     adjacent (astar_next_step g s t) s) := by
  rcases astar_result_ok g s t hbin hsw with h | ⟨hadj, hw⟩
  · exact Or.inl h
  · exact Or.inr ⟨hw.1, hw.2, hadj⟩

/-- Witness for C10: the hypotheses and conclusion at the concrete
grid `gridC8`, start (1,0), target (1,1). -/
theorem C10_witness :
    binaryGrid gridC8 ∧ walkable gridC8 ((1 : Int), (0 : Int)) ∧
    (astar_next_step gridC8 ((1 : Int), (0 : Int)) ((1 : Int), (1 : Int)) =
        ((1 : Int), (0 : Int)) ∨
     (inb gridC8 (astar_next_step gridC8 ((1 : Int), (0 : Int)) ((1 : Int), (1 : Int))) ∧
      cellv gridC8 (astar_next_step gridC8 ((1 : Int), (0 : Int)) ((1 : Int), (1 : Int))) =
        ROADC ∧
      adjacent (astar_next_step gridC8 ((1 : Int), (0 : Int)) ((1 : Int), (1 : Int)))
        ((1 : Int), (0 : Int)))) :=
  ⟨by unfold binaryGrid; decide, by decide,
   C10_next_step_safe gridC8 ((1 : Int), (0 : Int)) ((1 : Int), (1 : Int))
     (by unfold binaryGrid; decide) (by decide)⟩


theorem reachable_closed (g : Grid) (S : Cell → Prop)
    (hS : ∀ p q, S p → (mazeGraph g).Adj p q → S q) {u v : Cell}
    (h : (mazeGraph g).Reachable u v) (hu : S u) : S v := by
  obtain ⟨w⟩ := h
  induction w with
  | nil => exact hu
  | cons ha p ih => exact ih (hS _ _ hu ha)

theorem gridC2_closed : ∀ p q : Cell,
    (p = ((0 : Int), (0 : Int)) ∨ p = ((0 : Int), (1 : Int))) →
    (mazeGraph gridC2).Adj p q →
    (q = ((0 : Int), (0 : Int)) ∨ q = ((0 : Int), (1 : Int))) := by
  intro p q hp hadj
  rw [mazeAdj_iff] at hadj
  obtain ⟨hpq, hwp, hwq⟩ := hadj
  obtain ⟨d, hd, rfl⟩ := (adjacent_iff_dirs p q).mp (adjacent_symm hpq)
  unfold dirs at hd
  simp only [List.mem_cons, List.not_mem_nil, or_false] at hd
  rcases hp with rfl | rfl <;>
    rcases hd with rfl | rfl | rfl | rfl <;>
    first
      | exact Or.inl (by decide)
      | exact Or.inr (by decide)
      | exact absurd hwq (by decide)

theorem gridC2_unreach :
    ¬ (mazeGraph gridC2).Reachable ((0 : Int), (0 : Int)) ((0 : Int), (3 : Int)) := by
  intro h
  have := reachable_closed gridC2
    (fun p => p = ((0 : Int), (0 : Int)) ∨ p = ((0 : Int), (1 : Int)))
    gridC2_closed h (Or.inl rfl)
  rcases this with h1 | h1 <;> exact absurd h1 (by decide)

theorem gridC2_reach01 :
    (mazeGraph gridC2).Reachable ((0 : Int), (0 : Int)) ((0 : Int), (1 : Int)) := by
  have hadj : (mazeGraph gridC2).Adj ((0 : Int), (0 : Int)) ((0 : Int), (1 : Int)) := by
    rw [mazeAdj_iff]
    refine ⟨by decide, by decide, by decide⟩
  exact hadj.reachable

/-- C2 counterexample: on `gridC2 = [[0,0,1,0]]` the goal (0,3) is
unreachable from the start (0,0) while the non-start cell (0,1) is
reachable, yet `astar_next_step` returns the start: the surrogate scan
starts with `best = start, bestf = 1<<30` and requires a strict
improvement, so on an f-tie (here f(0,0) = f(0,1) = 3) the start wins
and the function returns `start` even though other cells are
reachable. -/
theorem C2_counterexample :
    ¬ (mazeGraph gridC2).Reachable ((0 : Int), (0 : Int)) ((0 : Int), (3 : Int)) ∧
    (mazeGraph gridC2).Reachable ((0 : Int), (0 : Int)) ((0 : Int), (1 : Int)) ∧
    (((0 : Int), (1 : Int)) : Cell) ≠ (((0 : Int), (0 : Int)) : Cell) ∧
    astar_next_step gridC2 ((0 : Int), (0 : Int)) ((0 : Int), (3 : Int)) =
      ((0 : Int), (0 : Int)) :=
  ⟨gridC2_unreach, gridC2_reach01, by decide, by decide⟩

/-- C2 (amended): with an unreachable goal, `astar_next_step` returns
either the start or a walkable cell 4-adjacent to the start, and the
surrogate scan returns either the start or a visited cell whose
f = gscore + h is minimal among all visited cells; because the scan
requires a strict improvement over the running best, which starts at
the start cell, the start can win an f-tie, so the function may return
the start even when other non-start cells are reachable. -/
theorem C2_unreachable_policy (g : Grid) (s t : Cell) (hbin : binaryGrid g)
    (hsw : walkable g s)
    (hunreach : ¬ (mazeGraph g).Reachable s t) :
    (astar_next_step g s t = s ∨
     (adjacent (astar_next_step g s t) s ∧ walkable g (astar_next_step g s t))) ∧
    (surrogateScan g t (searchLoop g t (astarFuelFor g) (initAState g s t)).gscore s = s ∨
     ∀ p ∈ cellsRM g,
       (searchLoop g t (astarFuelFor g) (initAState g s t)).gscore p < INF →
       (searchLoop g t (astarFuelFor g) (initAState g s t)).gscore
           (surrogateScan g t
             (searchLoop g t (astarFuelFor g) (initAState g s t)).gscore s) +
         hManhattan t (surrogateScan g t
             (searchLoop g t (astarFuelFor g) (initAState g s t)).gscore s) ≤
       (searchLoop g t (astarFuelFor g) (initAState g s t)).gscore p +
         hManhattan t p) := by
  refine ⟨astar_result_ok g s t hbin hsw, ?_⟩
  rcases surrogateScan_spec g t
      (searchLoop g t (astarFuelFor g) (initAState g s t)).gscore s with h | ⟨_, hmin⟩
  · exact Or.inl h
  · exact Or.inr hmin

/-- Witness for C2 (amended): hypotheses and conclusion at the
concrete grid `gridC2`, start (0,0), unreachable goal (0,3). -/
theorem C2_witness :
    binaryGrid gridC2 ∧ walkable gridC2 ((0 : Int), (0 : Int)) ∧
    ¬ (mazeGraph gridC2).Reachable ((0 : Int), (0 : Int)) ((0 : Int), (3 : Int)) ∧
    ((astar_next_step gridC2 ((0 : Int), (0 : Int)) ((0 : Int), (3 : Int)) =
        ((0 : Int), (0 : Int)) ∨
      (adjacent (astar_next_step gridC2 ((0 : Int), (0 : Int)) ((0 : Int), (3 : Int)))
          ((0 : Int), (0 : Int)) ∧
       walkable gridC2
         (astar_next_step gridC2 ((0 : Int), (0 : Int)) ((0 : Int), (3 : Int))))) ∧
     (surrogateScan gridC2 ((0 : Int), (3 : Int))
          (searchLoop gridC2 ((0 : Int), (3 : Int)) (astarFuelFor gridC2)
            (initAState gridC2 ((0 : Int), (0 : Int)) ((0 : Int), (3 : Int)))).gscore
          ((0 : Int), (0 : Int)) = ((0 : Int), (0 : Int)) ∨
      ∀ p ∈ cellsRM gridC2,
        (searchLoop gridC2 ((0 : Int), (3 : Int)) (astarFuelFor gridC2)
          (initAState gridC2 ((0 : Int), (0 : Int)) ((0 : Int), (3 : Int)))).gscore p < INF →
        (searchLoop gridC2 ((0 : Int), (3 : Int)) (astarFuelFor gridC2)
            (initAState gridC2 ((0 : Int), (0 : Int)) ((0 : Int), (3 : Int)))).gscore
            (surrogateScan gridC2 ((0 : Int), (3 : Int))
              (searchLoop gridC2 ((0 : Int), (3 : Int)) (astarFuelFor gridC2)
                (initAState gridC2 ((0 : Int), (0 : Int)) ((0 : Int), (3 : Int)))).gscore
              ((0 : Int), (0 : Int))) +
          hManhattan ((0 : Int), (3 : Int)) (surrogateScan gridC2 ((0 : Int), (3 : Int))
              (searchLoop gridC2 ((0 : Int), (3 : Int)) (astarFuelFor gridC2)
                (initAState gridC2 ((0 : Int), (0 : Int)) ((0 : Int), (3 : Int)))).gscore
              ((0 : Int), (0 : Int))) ≤
        (searchLoop gridC2 ((0 : Int), (3 : Int)) (astarFuelFor gridC2)
            (initAState gridC2 ((0 : Int), (0 : Int)) ((0 : Int), (3 : Int)))).gscore p +
          hManhattan ((0 : Int), (3 : Int)) p)) :=
  ⟨by unfold binaryGrid; decide, by decide, gridC2_unreach,
   C2_unreachable_policy gridC2 ((0 : Int), (0 : Int)) ((0 : Int), (3 : Int))
     (by unfold binaryGrid; decide) (by decide) gridC2_unreach⟩


theorem gridW_walk_cases (p : Cell) (hp : walkable gridW p) :
    p = ((0 : Int), (0 : Int)) ∨ p = ((0 : Int), (1 : Int)) := by
  obtain ⟨pr, pc⟩ := p
  obtain ⟨⟨h1, h2, h3, h4⟩, _⟩ := hp
  have hH : Hg gridW = 1 := by decide
  have hW : Wg gridW = 2 := by decide
  rw [hH] at h2
  rw [hW] at h4
  have hpr : pr = 0 := by omega
  have hpc : pc = 0 ∨ pc = 1 := by omega
  rcases hpc with h | h
  · left
    rw [hpr, h]
  · right
    rw [hpr, h]

theorem gridW_conn : ∀ p q : Cell, walkable gridW p → walkable gridW q →
    (mazeGraph gridW).Reachable p q := by
  have hadj : (mazeGraph gridW).Adj ((0 : Int), (0 : Int)) ((0 : Int), (1 : Int)) := by
    rw [mazeAdj_iff]
    refine ⟨by decide, by decide, by decide⟩
  intro p q hp hq
  rcases gridW_walk_cases p hp with rfl | rfl <;>
    rcases gridW_walk_cases q hq with rfl | rfl
  · exact SimpleGraph.Reachable.refl _
  · exact hadj.reachable
  · exact hadj.symm.reachable
  · exact SimpleGraph.Reachable.refl _

/-- C1: on a Road/Wall grid smaller than the 1<<29 sentinel whose Road
cells form a single connected component, every step returned by
`astar_next_step` from a non-goal Road cell moves along an edge of the
movement graph and decreases the true shortest-path distance to the
goal by exactly one (so every returned step lies on an optimal path),
and consequently iterating it from any Road start reaches the goal in
exactly the shortest-path number of steps. -/
theorem C1_astar_converges_optimally (g : Grid) (hbin : binaryGrid g)
    (hsm : smallGrid g)
    (hconn : ∀ p q : Cell, walkable g p → walkable g q → (mazeGraph g).Reachable p q)
    (s t : Cell) (hsw : walkable g s) (hwt : walkable g t) :
    (∀ p : Cell, walkable g p → p ≠ t →
      (mazeGraph g).Adj p (astar_next_step g p t) ∧
      (mazeGraph g).dist (astar_next_step g p t) t + 1 = (mazeGraph g).dist p t) ∧
    Nat.iterate (fun p => astar_next_step g p t) ((mazeGraph g).dist s t) s = t := by
  have hstep : ∀ p : Cell, walkable g p → p ≠ t →
      (mazeGraph g).Adj p (astar_next_step g p t) ∧
      (mazeGraph g).dist (astar_next_step g p t) t + 1 = (mazeGraph g).dist p t :=
    fun p hp hpt => astar_step_opt g p t hbin hp hsm (hconn p t hp hwt) hpt
  refine ⟨hstep, ?_⟩
  have key : ∀ (n : Nat) (p : Cell), walkable g p → (mazeGraph g).dist p t = n →
      Nat.iterate (fun q => astar_next_step g q t) n p = t := by
    intro n
    induction n with
    | zero =>
      intro p hp hd
      have hpt : p = t := ((hconn p t hp hwt).dist_eq_zero_iff).mp hd
      rw [Function.iterate_zero_apply]
      exact hpt
    | succ n ih =>
      intro p hp hd
      have hpt : p ≠ t := by
        intro hc
        subst hc
        rw [SimpleGraph.dist_self] at hd
        omega
      obtain ⟨hadj, hdd⟩ := hstep p hp hpt
      have hwr : walkable g (astar_next_step g p t) := ((mazeAdj_iff g _ _).mp hadj).2.2
      have hdr : (mazeGraph g).dist (astar_next_step g p t) t = n := by omega
      rw [Function.iterate_succ_apply]
      exact ih _ hwr hdr
  exact key _ s hsw rfl

/-- Witness for C1: hypotheses and conclusion at the concrete
all-Road grid `gridW`, start (0,0), goal (0,1). -/
theorem C1_witness :
    binaryGrid gridW ∧ smallGrid gridW ∧
    (∀ p q : Cell, walkable gridW p → walkable gridW q →
      (mazeGraph gridW).Reachable p q) ∧
    walkable gridW ((0 : Int), (0 : Int)) ∧ walkable gridW ((0 : Int), (1 : Int)) ∧
    ((∀ p : Cell, walkable gridW p → p ≠ ((0 : Int), (1 : Int)) →
       (mazeGraph gridW).Adj p (astar_next_step gridW p ((0 : Int), (1 : Int))) ∧
       (mazeGraph gridW).dist (astar_next_step gridW p ((0 : Int), (1 : Int)))
           ((0 : Int), (1 : Int)) + 1 =
         (mazeGraph gridW).dist p ((0 : Int), (1 : Int))) ∧
     Nat.iterate (fun p => astar_next_step gridW p ((0 : Int), (1 : Int)))
       ((mazeGraph gridW).dist ((0 : Int), (0 : Int)) ((0 : Int), (1 : Int)))
       ((0 : Int), (0 : Int)) = ((0 : Int), (1 : Int))) :=
  ⟨by unfold binaryGrid; decide, by unfold smallGrid; decide, gridW_conn,
   by decide, by decide,
   C1_astar_converges_optimally gridW (by unfold binaryGrid; decide)
     (by unfold smallGrid; decide) gridW_conn ((0 : Int), (0 : Int))
     ((0 : Int), (1 : Int)) (by decide) (by decide)⟩

end MazeGame
